import Mathlib

/-!
Verification of magicscan.

Shallow embedding of `src/main.cc` (class `Scanner`, `usage`, `main`).

Modelling decisions, all visible in the definitions below:

* `std::unordered_map<std::string, size_t> _stats` is an association list
  `Stats`; a key occurs at most once in every map the program builds, the
  list order stands for the (unspecified) iteration order of the map.
  Counts are natural numbers: a count grows by one per directory entry, so
  the 64-bit ceiling of `size_t` is out of reach and is not modelled.
* `numThreadsAvailable` is a `size_t` that the user can set to any value
  (`-n -1` gives `2^64 - 1`), so `++` and `--` on it are taken modulo `2^64`.
* The file system and libmagic are outside the program.  What they answer
  is input data: an `Entry` carries the answers of `fs::is_symlink`,
  `fs::is_directory`, `fs::is_regular_file` (`none`: the call throws
  `fs::filesystem_error`), of `magic_open` for a `Scanner` built on that path
  and of `magic_file` on that path; a `Listing` is what
  `fs::directory_iterator` yields, ending normally or with an exception.
* Threads.  `scan()` calls `startThread()` and then at once `joinThreads()`,
  whose first action is `_thread->join()`.  The creating thread therefore
  does nothing while its worker runs, and at every moment exactly one thread
  of the process is runnable.  The worker body `scanImpl()` is sequenced
  inside `startThread`, and `join()` has nothing left to wait for.
  The busy wait `while (numThreadsAvailable == 0) yield()` can only be left
  when another thread increments the counter; as no other thread is
  runnable, entering it at 0 never returns: `startThread` answers `none`.
* `World.history` is a ghost log of every access to `numThreadsAvailable`;
  no model function reads it.
* Not modelled: a `std::thread` that cannot be created and memory that cannot
  be allocated; `size_t` is taken to be 64 bits wide.
* `std::sort` and `getopt` are library code: `dumpResults` takes the sort as
  a parameter, constrained by the contract `StdSort`, and `main` takes the
  answers of `getopt` as input.  `std::atoi` is modelled as the C library
  computes it, `(int) strtol(str, NULL, 10)` with a 64-bit `long` and a 32-bit
  `int`, so that a value outside `int` gives the count the program runs with.
-/

namespace MagicScan

/-! ## The label-count map -/

/-- The type `StatsElt` of the source: `std::pair<std::string, size_t>`. -/
abbrev StatsElt := String × Nat

/-- The type of `_stats`: `std::unordered_map<std::string, size_t>`. -/
abbrev Stats := List StatsElt

/-- The count stored under `k`, 0 when `k` is not a key. -/
def Stats.get (m : Stats) (k : String) : Nat :=
  match m with
  | [] => 0
  | (k', v) :: rest => if k' = k then v else Stats.get rest k

/-- The statement `_stats[k] += n`: `operator[]` inserts `k` with count 0 when
it is absent, then `n` is added. -/
def Stats.add (m : Stats) (k : String) (n : Nat) : Stats :=
  match m with
  | [] => [(k, n)]
  | (k', v) :: rest => if k' = k then (k', v + n) :: rest else (k', v) :: Stats.add rest k n

/-- The statement `++_stats[k]`. -/
def Stats.incr (m : Stats) (k : String) : Stats := m.add k 1

/-- The loop `for (const auto &pr : child) _stats[pr.first] += pr.second;`. -/
def Stats.merge (m : Stats) (child : Stats) : Stats :=
  child.foldl (fun acc pr => acc.add pr.1 pr.2) m

/-- Every key occurs once. -/
def Stats.WF (m : Stats) : Prop := (m.map Prod.fst).Nodup

instance Stats.decidableWF (m : Stats) : Decidable m.WF :=
  inferInstanceAs (Decidable (m.map Prod.fst).Nodup)

/-! ## The shared counter -/

/-- Number of values of a `size_t`. -/
def sizeMod : Nat := 2 ^ 64

/-- One access to `numThreadsAvailable` (ghost). -/
inductive Event where
  /-- The read in `if (!numThreadsAvailable)` of `scan()` of the node `path`;
  `worker` tells that `startThread()` was chosen. -/
  | decision (path : String) (seen : Nat) (worker : Bool)
  /-- The statement `--numThreadsAvailable` in `startThread()`. -/
  | acquire (path : String) (before after : Nat)
  /-- The statement `++numThreadsAvailable` in `joinThreads()`. -/
  | release (path : String) (before after : Nat)
  deriving DecidableEq, Repr

/-- The value of the counter right after the access. -/
def Event.counter : Event → Nat
  | .decision _ seen _ => seen
  | .acquire _ _ after => after
  | .release _ _ after => after

/-- The process-wide state: the static `numThreadsAvailable`, and the ghost log. -/
structure World where
  numThreadsAvailable : Nat
  history : List Event
  deriving DecidableEq, Repr

/-- Append one event to the ghost log. -/
def World.log (w : World) (e : Event) : World :=
  { w with history := w.history ++ [e] }

/-! ## The file system and libmagic, as seen by the program -/

/-- What the outside world answers about one directory entry. -/
structure Entry where
  /-- Result of `item.path()`. -/
  path : String
  /-- Result of `fs::is_symlink(itemPath)`; `none` when it throws. -/
  is_symlink : Option Bool
  /-- Result of `fs::is_directory(itemPath)`; `none` when it throws. -/
  is_directory : Option Bool
  /-- Result of `fs::is_regular_file(itemPath)`; `none` when it throws. -/
  is_regular_file : Option Bool
  /-- Whether `magic_open(MAGIC_NONE)` gives a handle in `Scanner(itemPath)`. -/
  magic_opens : Bool
  /-- Result of `magic_file(_magic, itemPath)`; `none` for a null pointer. -/
  magic_file : Option String
  deriving DecidableEq, Repr

/-- What `fs::directory_iterator(_path)` yields from some position on. -/
inductive Listing where
  /-- The iterator reached the end. -/
  | done : Listing
  /-- The iterator threw `fs::filesystem_error` (when built, or when advanced). -/
  | error : Listing
  /-- The iterator yields `e`; `sub` is the listing of `e.path` should a
  `Scanner` iterate it, `rest` is what the iterator yields after `e`. -/
  | entry (e : Entry) (sub : Listing) (rest : Listing) : Listing
  deriving DecidableEq, Repr

/-! ## class Scanner -/

/-- The data members of `class Scanner`.  `_thread` and `_magic` record
whether the pointer is non-null. -/
inductive Scanner where
  | mk (_scanners : List Scanner) (_stats : Stats) (_path : String)
      (_thread : Bool) (_magic : Bool) (_numScanned : Nat) : Scanner
  deriving Repr

namespace Scanner

def _scanners : Scanner → List Scanner
  | .mk c _ _ _ _ _ => c

def _stats : Scanner → Stats
  | .mk _ st _ _ _ _ => st

def _path : Scanner → String
  | .mk _ _ p _ _ _ => p

def _thread : Scanner → Bool
  | .mk _ _ _ t _ _ => t

def _magic : Scanner → Bool
  | .mk _ _ _ _ m _ => m

def _numScanned : Scanner → Nat
  | .mk _ _ _ _ _ n => n

/-- The constructor `Scanner(fs::path p)`; `opens` is the outcome of `magic_open`. -/
def new (p : String) (opens : Bool) : Scanner :=
  .mk [] [] p false opens 0

/-- The accessor `getStats()`. -/
def getStats (s : Scanner) : Stats := s._stats

/-- The method `clearStats()`. -/
def clearStats : Scanner → Scanner
  | .mk c _ p t m n => .mk c [] p t m n

/-- The statement `++_stats[k]` on a node. -/
def bump (k : String) : Scanner → Scanner
  | .mk c st p t m n => .mk c (st.incr k) p t m n

/-- The statement `++_numScanned`. -/
def incNumScanned : Scanner → Scanner
  | .mk c st p t m n => .mk c st p t m (n + 1)

/-- The statement `_scanners.push_back(std::move(s))`. -/
def push_back (s : Scanner) (child : Scanner) : Scanner :=
  match s with
  | .mk c st p t m n => .mk (c ++ [child]) st p t m n

/-- The assignment `_thread = new std::thread(...)`. -/
def setThread : Scanner → Scanner
  | .mk c st p _ m n => .mk c st p true m n

end Scanner

/-- A character other than the comma. -/
def notComma (c : Char) : Bool := c != ','

/-- The call `s.find_first_of(",")`: index of the first comma, `none` for `npos`. -/
def find_first_of_comma : List Char → Option Nat
  | [] => none
  | c :: cs => if c = ',' then some 0 else (find_first_of_comma cs).map (· + 1)

/-- The call `s.substr(0, n)`, with `none` for `npos`. -/
def substr0 (s : List Char) : Option Nat → List Char
  | none => s
  | some n => s.take n

/-- The key of `addMagic`: `s.substr(0, s.find_first_of(","))`. -/
def magicLabel (desc : String) : String :=
  String.mk (substr0 desc.data (find_first_of_comma desc.data))

/-- The key that `addMagic(p)` increments, from the state of `_magic` and the
answer of `magic_file`. -/
def magicKey (magic : Bool) (desc : Option String) : String :=
  match magic, desc with
  | true, some d => magicLabel d
  | _, _ => "__magic_error__"

/-- The method `addMagic(p)`; `desc` is the answer of `magic_file(_magic, p)`,
which is only asked when `_magic` is non-null. -/
def Scanner.addMagic (desc : Option String) (s : Scanner) : Scanner :=
  s.bump (magicKey s._magic desc)

mutual
/-- The method `joinThreads()`. -/
def joinThreads : Scanner → World → Scanner × World
  | .mk scanners stats path thread _ n, w =>
    let w1 :=
      if thread then
        let c := (w.numThreadsAvailable + 1) % sizeMod
        { numThreadsAvailable := c,
          history := w.history ++ [Event.release path w.numThreadsAvailable c] }
      else w
    let r := joinScanners scanners stats w1
    (.mk r.1 r.2.1 path false false n, r.2.2)
/-- The loop `for (auto &s : _scanners)` of `joinThreads()`, on the part of
the vector still to visit; `stats` is `_stats` of the joining node. -/
def joinScanners : List Scanner → Stats → World → List Scanner × Stats × World
  | [], stats, w => ([], stats, w)
  | s :: rest, stats, w =>
    let j := joinThreads s w
    let stats1 := stats.merge j.1.getStats
    let r := joinScanners rest stats1 j.2
    (j.1.clearStats :: r.1, r.2.1, r.2.2)
end

/-- The method `startThread()`; `body` is the lambda `[&]() { scanImpl(); }`. -/
def startThread (body : Scanner → World → Option (Scanner × World))
    (s : Scanner) (w : World) : Option (Scanner × World) :=
  if w.numThreadsAvailable = 0 then none
  else
    let c := (w.numThreadsAvailable + sizeMod - 1) % sizeMod
    let w1 : World :=
      { numThreadsAvailable := c,
        history := w.history ++ [Event.acquire s._path w.numThreadsAvailable c] }
    match body s w1 with
    | none => none
    | some (s1, w2) => some (s1.setThread, w2)

/-- The method `scan()`, with `impl` for the call `scanImpl()` of this node. -/
def scanWith (impl : Scanner → World → Option (Scanner × World))
    (s : Scanner) (w : World) : Option (Scanner × World) :=
  let w0 := w.log (Event.decision s._path w.numThreadsAvailable
    (decide (w.numThreadsAvailable ≠ 0)))
  let walked :=
    if w.numThreadsAvailable = 0 then impl s w0 else startThread impl s w0
  match walked with
  | none => none
  | some (s1, w1) => some (joinThreads s1 w1)

/-- The method `scanImpl()` from the position of the iterator given by the
listing.  `none`: the call does not return. -/
def scanImpl : Listing → Scanner → World → Option (Scanner × World)
  | .done, s, w => some (s, w)
  | .error, s, w => some (s.bump "__error__", w)
  | .entry e sub rest, s, w =>
    let s := s.incNumScanned
    match e.is_symlink with
    | none => scanImpl rest (s.bump "__error__") w
    | some true => scanImpl rest (s.bump "__symlink__") w
    | some false =>
      match e.is_directory with
      | none => scanImpl rest (s.bump "__error__") w
      | some true =>
        match scanWith (scanImpl sub) (Scanner.new e.path e.magic_opens) w with
        | none => none
        | some (child, w1) => scanImpl rest (s.push_back child) w1
      | some false =>
        match e.is_regular_file with
        | none => scanImpl rest (s.bump "__error__") w
        | some true => scanImpl rest (s.addMagic e.magic_file) w
        | some false => scanImpl rest (s.bump "__other__") w

/-- The method `scan()` of a node whose directory has the listing `l`. -/
def scan (l : Listing) (s : Scanner) (w : World) : Option (Scanner × World) :=
  scanWith (scanImpl l) s w

/-! ## Notions used to state the properties -/

/-- The category the if-chain of `scanImpl` puts an entry in: symlink is
tested before directory, directory before regular file; `failed` when a test
that is reached throws. -/
inductive Kind where
  | symlink | directory | regular | other | failed
  deriving DecidableEq, Repr

/-- The category of an entry. -/
def Entry.kind (e : Entry) : Kind :=
  match e.is_symlink with
  | none => .failed
  | some true => .symlink
  | some false =>
    match e.is_directory with
    | none => .failed
    | some true => .directory
    | some false =>
      match e.is_regular_file with
      | none => .failed
      | some true => .regular
      | some false => .other

/-- The entries a listing yields, in listing order. -/
def Listing.entries : Listing → List Entry
  | .done => []
  | .error => []
  | .entry e _ rest => e :: rest.entries

/-- Whether the iteration ends with an exception. -/
def Listing.throws : Listing → Bool
  | .done => false
  | .error => true
  | .entry _ _ rest => rest.throws

/-- The key counted for an entry that is not a directory, by a node whose
`_magic` is `magic`. -/
def entryKey (magic : Bool) (e : Entry) : String :=
  match e.kind with
  | .symlink => "__symlink__"
  | .regular => magicKey magic e.magic_file
  | .other => "__other__"
  | _ => "__error__"

/-- The keys counted by the walk of one directory itself, one per count. -/
def ownKeys (magic : Bool) : Listing → List String
  | .done => []
  | .error => ["__error__"]
  | .entry e _ rest =>
    if e.kind = .directory then ownKeys magic rest
    else entryKey magic e :: ownKeys magic rest

/-- The keys counted in a directory and in all directories below it. -/
def treeKeys (magic : Bool) : Listing → List String
  | .done => []
  | .error => ["__error__"]
  | .entry e sub rest =>
    if e.kind = .directory then treeKeys e.magic_opens sub ++ treeKeys magic rest
    else entryKey magic e :: treeKeys magic rest

/-- The directories strictly below a directory that get a `Scanner`, in scan
order, each with the outcome of its `magic_open` and its listing. -/
def descendants : Listing → List (Bool × Listing)
  | .done => []
  | .error => []
  | .entry e sub rest =>
    if e.kind = .directory then (e.magic_opens, sub) :: (descendants sub ++ descendants rest)
    else descendants rest

/-- The entries of a listing that get a child `Scanner`, with their listings. -/
def dirEntries : Listing → List (Entry × Listing)
  | .done => []
  | .error => []
  | .entry e sub rest =>
    if e.kind = .directory then (e, sub) :: dirEntries rest else dirEntries rest

/-- The accesses to the counter of one call of `scan()` on the node `p` that
finds the counter at `c`, when the walk of the node makes the accesses `walk`. -/
def scanEvents (p : String) (walk : Nat → List Event) (c : Nat) : List Event :=
  if c = 0 then Event.decision p 0 false :: walk 0
  else Event.decision p c true :: Event.acquire p c (c - 1) ::
    (walk (c - 1) ++ [Event.release p (c - 1) c])

/-- The accesses to the counter of one call of `scanImpl()` that finds the
counter at `c`: those of the `scan()` of each child, in listing order. -/
def walkEvents : Listing → Nat → List Event
  | .done, _ => []
  | .error, _ => []
  | .entry e sub rest, c =>
    if e.kind = .directory then scanEvents e.path (walkEvents sub) c ++ walkEvents rest c
    else walkEvents rest c

mutual
/-- A node that `joinThreads()` leaves as it is: no thread, no classifier
handle, and the same for every node below, whose counts are all cleared. -/
def Scanner.settled : Scanner → Bool
  | .mk kids _ _ th mg _ => !th && !mg && settledKids kids
/-- All nodes of a vector are settled and hold no counts. -/
def settledKids : List Scanner → Bool
  | [] => true
  | k :: ks => k.settled && k._stats.isEmpty && settledKids ks
end

/-- An entry that is a symbolic link. -/
def Entry.isSymlink (e : Entry) : Bool := e.is_symlink == some true

/-- An entry that is a directory and not a symbolic link. -/
def Entry.isDirectory (e : Entry) : Bool :=
  e.is_symlink == some false && e.is_directory == some true

/-- An entry that is a regular file, and neither a symbolic link nor a directory. -/
def Entry.isRegular (e : Entry) : Bool :=
  e.is_symlink == some false && e.is_directory == some false && e.is_regular_file == some true

/-- An entry that is none of symbolic link, directory, regular file. -/
def Entry.isOther (e : Entry) : Bool :=
  e.is_symlink == some false && e.is_directory == some false && e.is_regular_file == some false

/-- An entry for which a type test that `scanImpl()` reaches throws. -/
def Entry.testThrows (e : Entry) : Prop :=
  e.is_symlink = none ∨ (e.is_symlink = some false ∧ e.is_directory = none) ∨
    (e.is_symlink = some false ∧ e.is_directory = some false ∧ e.is_regular_file = none)

/-- The counts a directory observes directly in its own walk: `_stats` right
after `scanImpl()` on a freshly built node. -/
def directCount (m : Bool) (l : Listing) (k : String) : Nat :=
  match scanImpl l (Scanner.new "" m) ⟨0, []⟩ with
  | some (s, _) => s._stats.get k
  | none => 0

/-- Reads the log as brackets: `acquire` opens, `release` closes; a release
has to close the latest acquire still open, be made on the same node and put
the counter back to the value found by that acquire. -/
def matched : List (String × Nat) → List Event → Bool
  | stack, [] => stack.isEmpty
  | stack, .decision _ _ _ :: t => matched stack t
  | stack, .acquire p b _ :: t => matched ((p, b) :: stack) t
  | [], .release _ _ _ :: _ => false
  | (q, b) :: stack, .release p _ a :: t => decide (p = q) && decide (a = b) && matched stack t

/-- No access wraps around: a decrement starts above zero and takes one off,
an increment adds one, the branch taken is the one the value read selects. -/
def Event.exact : Event → Bool
  | .decision _ seen worker => worker == decide (seen ≠ 0)
  | .acquire _ before after => decide (0 < before) && decide (after + 1 = before)
  | .release _ before after => decide (after = before + 1)

/-- The nodes that decrement the counter, in the order of the log. -/
def acquires (h : List Event) : List String :=
  h.filterMap (fun ev => match ev with
    | .acquire p _ _ => some p
    | _ => none)

/-- The nodes that increment the counter, in the order of the log. -/
def releases (h : List Event) : List String :=
  h.filterMap (fun ev => match ev with
    | .release p _ _ => some p
    | _ => none)

/-- The dispatch decisions of a log: node, value read, worker or not. -/
def decisions : List Event → List (String × Nat × Bool)
  | [] => []
  | .decision p seen worker :: t => (p, seen, worker) :: decisions t
  | _ :: t => decisions t

/-- The directories below a node that get a `Scanner`, in scan order, with
their depth; `d` is the depth of the directories listed directly. -/
def dirDepths : Listing → Nat → List (String × Nat)
  | .done, _ => []
  | .error, _ => []
  | .entry e sub rest, d =>
    if e.kind = .directory then (e.path, d) :: (dirDepths sub (d + 1) ++ dirDepths rest d)
    else dirDepths rest d

/-- The depth of the deepest directory below a node, the node being at 0. -/
def height : Listing → Nat
  | .done => 0
  | .error => 0
  | .entry e sub rest =>
    if e.kind = .directory then max (height sub + 1) (height rest) else height rest

/-- The listing `l1` is `l0` where one scanned directory, empty in `l0`, is
unreadable: building its `directory_iterator` throws. -/
inductive OneUnreadable : Listing → Listing → Prop where
  | here (e : Entry) (rest : Listing) : e.kind = .directory →
      OneUnreadable (.entry e .done rest) (.entry e .error rest)
  | inside (e : Entry) (sub0 sub1 rest : Listing) : e.kind = .directory →
      OneUnreadable sub0 sub1 → OneUnreadable (.entry e sub0 rest) (.entry e sub1 rest)
  | later (e : Entry) (sub rest0 rest1 : Listing) :
      OneUnreadable rest0 rest1 → OneUnreadable (.entry e sub rest0) (.entry e sub rest1)

/-! ## dumpResults -/

/-- The comparison `[](StatsElt &a, StatsElt &b) { return a.second > b.second; }`. -/
def comp (a b : StatsElt) : Bool := decide (a.2 > b.2)

/-- The contract of `std::sort(first, last, comp)`: the range is permuted so
that no element is `comp`-before an element placed ahead of it. -/
def StdSort (sort : List StatsElt → List StatsElt) : Prop :=
  ∀ v, (sort v).Perm v ∧ (sort v).Pairwise (fun a b => comp b a = false)

/-- What `dumpResults()` prints: the number in the heading `Top <top> file
types:` and the lines `<rank>)\t<label>: <count>`. -/
structure Report where
  top : Nat
  lines : List (Nat × String × Nat)
  deriving DecidableEq, Repr

/-- The method `dumpResults()`.  `sort` is `std::sort` with `comp`; the
vector `results` is filled in the iteration order of `_stats`. -/
def dumpResults (sort : List StatsElt → List StatsElt) (s : Scanner) (w : World) :
    Report × Scanner × World :=
  let j := joinThreads s w
  let results : List StatsElt := j.1._stats.map (fun pr => (pr.1, pr.2))
  let results := sort results
  ({ top := min 10 results.length,
     lines := ((results.take 10).enumFrom 1).map (fun x => (x.1, x.2.1, x.2.2)) }, j)

/-- A sort that meets the contract of `std::sort`: insertion sort. -/
def insertByCount (a : StatsElt) : List StatsElt → List StatsElt
  | [] => [a]
  | b :: rest => if comp b a then b :: insertByCount a rest else a :: b :: rest

/-- Insertion sort by decreasing count. -/
def sortByCount : List StatsElt → List StatsElt
  | [] => []
  | a :: rest => insertByCount a (sortByCount rest)

/-! ## main -/

/-- The test `isspace(c)` in the C locale. -/
def isspace (c : Char) : Bool :=
  c = ' ' || c = '\t' || c = '\n' || c = '\x0b' || c = '\x0c' || c = '\r'

/-- The leading decimal digits of a string, read as a number. -/
def atoiDigits : List Char → Nat → Nat
  | [], acc => acc
  | c :: cs, acc => if c.isDigit then atoiDigits cs (10 * acc + (c.toNat - 48)) else acc

/-- The call `strtol(str, NULL, 10)`: white space is skipped, then an optional
sign and the decimal digits that follow are read, 0 when there are none; a
value outside `long` (64 bits) is replaced by `LONG_MAX` or `LONG_MIN`. -/
def strtol (str : String) : Int :=
  match str.data.dropWhile isspace with
  | '-' :: cs => - ((min (atoiDigits cs 0) (2 ^ 63) : Nat) : Int)
  | '+' :: cs => ((min (atoiDigits cs 0) (2 ^ 63 - 1) : Nat) : Int)
  | cs => ((min (atoiDigits cs 0) (2 ^ 63 - 1) : Nat) : Int)

/-- The conversion of a `long` to `int`: the low 32 bits, read as a signed
number. -/
def toInt32 (i : Int) : Int := (i + 2 ^ 31) % 2 ^ 32 - 2 ^ 31

/-- The call `std::atoi(str)`, an `int`: the C library computes it as
`(int) strtol(str, NULL, 10)`. -/
def atoi (str : String) : Int := toInt32 (strtol str)

/-- The conversion of an `int` to `size_t` in `numThreadsAvailable = ...`. -/
def toSizeT (i : Int) : Nat := (i % (sizeMod : Int)).toNat

/-- A regular file that libmagic describes as `desc`. -/
def regularFile (p desc : String) : Entry :=
  ⟨p, some false, some false, some true, true, some desc⟩

/-- A directory. -/
def directory (p : String) : Entry :=
  ⟨p, some false, some true, some false, true, none⟩

/-- A symbolic link to a directory. -/
def linkToDirectory (p : String) : Entry :=
  ⟨p, some true, some true, some false, true, none⟩

/-- Scenario B: three regular files described as text, text, image and a symlink. -/
def scenarioB : Listing :=
  .entry (regularFile "a" "text") .done
    (.entry (regularFile "b" "text") .done
      (.entry (regularFile "c" "image") .done
        (.entry (linkToDirectory "d") .done .done)))

/-- Scenario D: a tree three levels deep. -/
def scenarioD : Listing :=
  .entry (regularFile "a" "text, with commas") .done
    (.entry (directory "d1")
        (.entry (regularFile "d1/b" "image") .done
          (.entry (directory "d1/d2")
              (.entry (regularFile "d1/d2/c" "text") .done .done)
              (.entry (directory "d1/d3") .done .done)))
      (.entry (linkToDirectory "s") .done .done))

/-- Scenario C with the subdirectory empty. -/
def scenarioC0 : Listing :=
  .entry (regularFile "a" "text") .done
    (.entry (directory "locked") .done
      (.entry (regularFile "b" "image") .done .done))

/-- Scenario C: the subdirectory cannot be read. -/
def scenarioC1 : Listing :=
  .entry (regularFile "a" "text") .done
    (.entry (directory "locked") .error
      (.entry (regularFile "b" "image") .done .done))

/-- An entry whose first type test throws. -/
def vanished (p : String) : Entry :=
  ⟨p, none, none, none, true, none⟩

/-- A merged map with twelve labels. -/
def twelveLabels : Stats :=
  [("text", 7), ("image", 3), ("data", 9), ("empty", 1), ("ELF", 12), ("PDF", 2),
   ("__symlink__", 5), ("JSON", 4), ("XML", 4), ("gzip", 6), ("__error__", 1), ("Zip", 8)]

/-- A root node, already joined, that holds `twelveLabels`. -/
def twelveRoot : Scanner :=
  Scanner.mk [] twelveLabels "." false false 12

/-- What `scan()` leaves of a node built on the path `p` with listing `l`. -/
def Scanned (m : Bool) (p : String) (l : Listing) (node : Scanner) : Prop :=
  node.settled = true ∧ node._path = p ∧ node._stats.WF ∧
    (∀ k, node._stats.get k = (treeKeys m l).count k) ∧
    node._numScanned = l.entries.length

/-- What `scanImpl()` does to a node `s` and to the counter. -/
def WalkOK (l : Listing) : Prop :=
  ∀ (s : Scanner) (w : World), w.numThreadsAvailable < sizeMod →
    ∃ (kids : List Scanner) (st : Stats),
      scanImpl l s w = some
        (Scanner.mk (s._scanners ++ kids) st s._path s._thread s._magic
            (s._numScanned + l.entries.length),
          { numThreadsAvailable := w.numThreadsAvailable,
            history := w.history ++ walkEvents l w.numThreadsAvailable }) ∧
      (∀ k, st.get k = s._stats.get k + (ownKeys s._magic l).count k) ∧
      (s._stats.WF → st.WF) ∧
      List.Forall₂ (fun d kid => Scanned d.1.magic_opens d.1.path d.2 kid) (dirEntries l) kids

/-! ## Lemmas on the label-count map -/

theorem Stats.get_add (m : Stats) (k : String) (n : Nat) (k' : String) :
    (m.add k n).get k' = m.get k' + (if k = k' then n else 0) := by
  induction m with
  | nil => simp [Stats.add, Stats.get]
  | cons p rest ih =>
    obtain ⟨k1, v1⟩ := p
    by_cases h1 : k1 = k
    · subst h1
      by_cases h2 : k1 = k' <;> simp [Stats.add, Stats.get, h2]
    · by_cases h2 : k1 = k'
      · subst h2
        have : ¬ k = k1 := fun h => h1 h.symm
        simp [Stats.add, Stats.get, h1, this]
      · simp [Stats.add, Stats.get, h1, h2, ih]

theorem Stats.keys_add (m : Stats) (k : String) (n : Nat) :
    (m.add k n).map Prod.fst = if k ∈ m.map Prod.fst then m.map Prod.fst
      else m.map Prod.fst ++ [k] := by
  induction m with
  | nil => simp [Stats.add]
  | cons p rest ih =>
    obtain ⟨k1, v1⟩ := p
    by_cases h1 : k1 = k
    · subst h1; simp [Stats.add]
    · have h1' : ¬ k = k1 := fun h => h1 h.symm
      simp only [Stats.add, h1, if_false, List.map_cons, ih, List.mem_cons, h1', false_or]
      split <;> simp

theorem Stats.WF_add {m : Stats} (h : m.WF) (k : String) (n : Nat) : (m.add k n).WF := by
  unfold Stats.WF at *
  rw [Stats.keys_add]
  split
  · exact h
  · rename_i hk
    rw [List.nodup_append]
    refine ⟨h, List.nodup_singleton k, ?_⟩
    intro a ha hb
    simp at hb
    subst hb
    exact hk ha

theorem Stats.WF_merge {m : Stats} (h : m.WF) (c : Stats) : (m.merge c).WF := by
  unfold Stats.merge
  induction c generalizing m with
  | nil => simpa using h
  | cons p rest ih => exact ih (Stats.WF_add h p.1 p.2)

theorem Stats.get_of_not_mem {m : Stats} {k : String} (h : k ∉ m.map Prod.fst) :
    m.get k = 0 := by
  induction m with
  | nil => rfl
  | cons p rest ih =>
    obtain ⟨k1, v1⟩ := p
    simp at h
    have h1 : ¬ k1 = k := fun e => h.1 e.symm
    simp only [Stats.get, h1, if_false]
    apply ih
    simpa using h.2

theorem Stats.get_merge (m : Stats) {c : Stats} (hc : c.WF) (k : String) :
    (m.merge c).get k = m.get k + c.get k := by
  unfold Stats.merge
  induction c generalizing m with
  | nil => simp [Stats.get]
  | cons p rest ih =>
    obtain ⟨k1, v1⟩ := p
    have hn : (rest.map Prod.fst).Nodup := (List.nodup_cons.mp hc).2
    have hk : k1 ∉ rest.map Prod.fst := (List.nodup_cons.mp hc).1
    simp only [List.foldl_cons]
    rw [ih _ hn, Stats.get_add]
    by_cases h1 : k1 = k
    · subst h1
      simp [Stats.get, Stats.get_of_not_mem hk]
    · simp [Stats.get, h1]

theorem Stats.merge_nil (m : Stats) : m.merge [] = m := rfl

/-! ## Lemmas on `joinThreads` -/

theorem settledKids_iff (ks : List Scanner) :
    settledKids ks = true ↔ ∀ k ∈ ks, k.settled = true ∧ k._stats = [] := by
  induction ks with
  | nil => simp [settledKids]
  | cons k ks ih => simp [settledKids, ih, List.isEmpty_iff]

theorem Scanner.clearStats_of_empty {s : Scanner} (h : s._stats = []) : s.clearStats = s := by
  cases s
  simp [Scanner._stats] at h
  simp [Scanner.clearStats, h]

theorem Scanner.settled_clearStats (s : Scanner) : s.clearStats.settled = s.settled := by
  cases s
  simp [Scanner.clearStats, Scanner.settled]

theorem Scanner.stats_clearStats (s : Scanner) : s.clearStats._stats = [] := by
  cases s
  simp [Scanner.clearStats, Scanner._stats]

mutual
theorem joinThreads_settled : ∀ (s : Scanner) (w : World), (joinThreads s w).1.settled = true
  | .mk kids st p th mg n, w => by
    simp only [joinThreads, Scanner.settled]
    simp [joinScanners_settled kids]
theorem joinScanners_settled : ∀ (ks : List Scanner) (st : Stats) (w : World),
    settledKids (joinScanners ks st w).1 = true
  | [], st, w => by simp [joinScanners, settledKids]
  | k :: ks, st, w => by
    simp only [joinScanners, settledKids]
    simp [Scanner.settled_clearStats, Scanner.stats_clearStats, joinThreads_settled k w,
      joinScanners_settled ks]
end

mutual
theorem joinThreads_of_settled : ∀ (s : Scanner) (w : World), s.settled = true →
    joinThreads s w = (s, w)
  | .mk kids st p th mg n, w, h => by
    simp only [Scanner.settled, Bool.and_eq_true, Bool.not_eq_true'] at h
    obtain ⟨⟨hth, hmg⟩, hk⟩ := h
    subst hth hmg
    simp [joinThreads, joinScanners_of_settledKids kids st w hk]
theorem joinScanners_of_settledKids : ∀ (ks : List Scanner) (st : Stats) (w : World),
    settledKids ks = true → joinScanners ks st w = (ks, st, w)
  | [], st, w, _ => by simp [joinScanners]
  | k :: ks, st, w, h => by
    simp only [settledKids, Bool.and_eq_true, List.isEmpty_iff] at h
    obtain ⟨⟨hk, he⟩, hks⟩ := h
    simp [joinScanners, joinThreads_of_settled k w hk, Scanner.getStats, he, Stats.merge_nil,
      Scanner.clearStats_of_empty he, joinScanners_of_settledKids ks st w hks]
end

/-- The loop of `joinThreads()` over children that are settled: nothing is
waited for, each child is merged and cleared. -/
theorem joinScanners_of_settled (ks : List Scanner) (st : Stats) (w : World)
    (h : ∀ k ∈ ks, k.settled = true) :
    joinScanners ks st w =
      (ks.map Scanner.clearStats, ks.foldl (fun acc k => acc.merge k._stats) st, w) := by
  induction ks generalizing st with
  | nil => simp [joinScanners]
  | cons k ks ih =>
    have hk := h k (List.mem_cons_self _ _)
    simp [joinScanners, joinThreads_of_settled k w hk, Scanner.getStats,
      ih _ (fun k' hk' => h k' (List.mem_cons_of_mem _ hk'))]

/-! ## The walk and the scan of a node -/

theorem dec_mod {c : Nat} (h0 : c ≠ 0) (h : c < sizeMod) : (c + sizeMod - 1) % sizeMod = c - 1 := by
  have : c + sizeMod - 1 = (c - 1) + sizeMod := by omega
  rw [this, Nat.add_mod_right]
  exact Nat.mod_eq_of_lt (by omega)

theorem inc_mod {c : Nat} (h0 : c ≠ 0) (h : c < sizeMod) : (c - 1 + 1) % sizeMod = c := by
  have : c - 1 + 1 = c := by omega
  rw [this]
  exact Nat.mod_eq_of_lt h

theorem treeKeys_count (m : Bool) (l : Listing) (k : String) :
    (treeKeys m l).count k =
      (ownKeys m l).count k +
        ((dirEntries l).map (fun d => (treeKeys d.1.magic_opens d.2).count k)).sum := by
  induction l with
  | done => simp [treeKeys, ownKeys, dirEntries]
  | error => simp [treeKeys, ownKeys, dirEntries]
  | entry e sub rest _ ih =>
    by_cases h : e.kind = .directory
    · simp [treeKeys, ownKeys, dirEntries, h, ih]; omega
    · simp [treeKeys, ownKeys, dirEntries, h, ih, List.count_cons]; omega

theorem merge_kids {ds : List (Entry × Listing)} {kids : List Scanner}
    (h : List.Forall₂ (fun d kid => Scanned d.1.magic_opens d.1.path d.2 kid) ds kids)
    (st : Stats) :
    (st.WF → (kids.foldl (fun acc k => acc.merge k._stats) st).WF) ∧
    ∀ k, (kids.foldl (fun acc k => acc.merge k._stats) st).get k =
      st.get k + (ds.map (fun d => (treeKeys d.1.magic_opens d.2).count k)).sum := by
  induction h generalizing st with
  | nil => simp
  | cons hd _ ih =>
    obtain ⟨_, _, hwf, hget, _⟩ := hd
    refine ⟨fun hst => (ih _).1 (Stats.WF_merge hst _), fun k => ?_⟩
    simp only [List.foldl_cons, List.map_cons, List.sum_cons]
    rw [(ih _).2 k, Stats.get_merge _ hwf, hget k]
    omega

theorem settledKids_clear {ds : List (Entry × Listing)} {kids : List Scanner}
    (h : List.Forall₂ (fun d kid => Scanned d.1.magic_opens d.1.path d.2 kid) ds kids) :
    (∀ k ∈ kids, k.settled = true) ∧ settledKids (kids.map Scanner.clearStats) = true := by
  induction h with
  | nil => simp [settledKids]
  | cons hd _ ih =>
    refine ⟨?_, ?_⟩
    · intro k hk
      rcases List.mem_cons.mp hk with rfl | hk
      · exact hd.1
      · exact ih.1 k hk
    · simp [settledKids, Scanner.settled_clearStats, Scanner.stats_clearStats, hd.1, ih.2]

/-- The method `scan()` on a freshly built node, given what its walk does. -/
theorem scan_of_walk {l : Listing} (hl : WalkOK l) (p : String) (m : Bool) (w : World)
    (hw : w.numThreadsAvailable < sizeMod) :
    ∃ node, scanWith (scanImpl l) (Scanner.new p m) w = some
        (node, { numThreadsAvailable := w.numThreadsAvailable,
                 history := w.history ++ scanEvents p (walkEvents l) w.numThreadsAvailable }) ∧
      Scanned m p l node := by
  obtain ⟨c, hist⟩ := w
  simp only at hw
  by_cases hc : c = 0
  · subst hc
    obtain ⟨kids, st, hrun, hget, hwf, hkids⟩ :=
      hl (Scanner.new p m) ⟨0, hist ++ [Event.decision p 0 false]⟩ (by simp [sizeMod])
    have hs := settledKids_clear hkids
    have hm := merge_kids hkids st
    refine ⟨Scanner.mk (kids.map Scanner.clearStats)
      (kids.foldl (fun acc k => acc.merge k._stats) st) p false false (0 + l.entries.length),
      ?_, ?_⟩
    · simp only [scanWith, World.log, Scanner.new, Scanner._path, if_true]
      simp only [Scanner.new, Scanner._scanners, Scanner._path, Scanner._thread,
        Scanner._magic, Scanner._numScanned, List.nil_append] at hrun
      simp only [ne_eq, not_true_eq_false, decide_False, hrun, joinThreads, Bool.false_eq_true,
        if_false, joinScanners_of_settled kids st _ hs.1, scanEvents, if_true,
        List.append_assoc, List.singleton_append]
    · refine ⟨?_, rfl, ?_, ?_, ?_⟩
      · simp [Scanner.settled, hs.2]
      · exact hm.1 (hwf (by simp [Scanner.new, Scanner._stats, Stats.WF]))
      · intro k
        show (kids.foldl (fun acc k => acc.merge k._stats) st).get k = _
        rw [hm.2 k, hget k, treeKeys_count]
        simp [Scanner.new, Scanner._stats, Scanner._magic, Stats.get]
      · simp [Scanner._numScanned, Scanner.new]
  · have hdec := dec_mod hc hw
    have hinc := inc_mod hc hw
    obtain ⟨kids, st, hrun, hget, hwf, hkids⟩ :=
      hl (Scanner.new p m)
        ⟨c - 1, hist ++ [Event.decision p c true, Event.acquire p c (c - 1)]⟩
        (by simp only; omega)
    have hs := settledKids_clear hkids
    have hm := merge_kids hkids st
    refine ⟨Scanner.mk (kids.map Scanner.clearStats)
      (kids.foldl (fun acc k => acc.merge k._stats) st) p false false (0 + l.entries.length),
      ?_, ?_⟩
    · simp only [scanWith, World.log, Scanner.new, Scanner._path, hc, if_false, startThread,
        hdec]
      simp only [Scanner.new, Scanner._scanners, Scanner._path, Scanner._thread,
        Scanner._magic, Scanner._numScanned, List.nil_append] at hrun
      simp only [ne_eq, hc, not_false_eq_true, decide_True, List.append_assoc,
        List.singleton_append, hrun, Scanner.setThread, joinThreads,
        if_true, hinc, joinScanners_of_settled kids st _ hs.1, scanEvents, if_false,
        List.cons_append, List.nil_append]
    · refine ⟨?_, rfl, ?_, ?_, ?_⟩
      · simp [Scanner.settled, hs.2]
      · exact hm.1 (hwf (by simp [Scanner.new, Scanner._stats, Stats.WF]))
      · intro k
        show (kids.foldl (fun acc k => acc.merge k._stats) st).get k = _
        rw [hm.2 k, hget k, treeKeys_count]
        simp [Scanner.new, Scanner._stats, Scanner._magic, Stats.get]
      · simp [Scanner._numScanned, Scanner.new]

/-- One turn of the loop of `scanImpl()` on an entry that is not a directory. -/
theorem scanImpl_entry_key (e : Entry) (sub rest : Listing) (s : Scanner) (w : World)
    (h : e.kind ≠ .directory) :
    scanImpl (.entry e sub rest) s w =
      scanImpl rest (s.incNumScanned.bump (entryKey s._magic e)) w := by
  have hm : s.incNumScanned._magic = s._magic := by cases s; rfl
  unfold Entry.kind at h
  rw [scanImpl]
  simp only [entryKey, Entry.kind, Scanner.addMagic, hm]
  cases h1 : e.is_symlink with
  | none => simp
  | some b1 =>
    cases b1 with
    | true => simp
    | false =>
      cases h2 : e.is_directory with
      | none => simp
      | some b2 =>
        cases b2 with
        | true => simp [h1, h2] at h
        | false =>
          cases h3 : e.is_regular_file with
          | none => simp
          | some b3 => cases b3 <;> simp

/-- One turn of the loop of `scanImpl()` on a directory entry. -/
theorem scanImpl_entry_dir (e : Entry) (sub rest : Listing) (s : Scanner) (w : World)
    (h : e.kind = .directory) :
    scanImpl (.entry e sub rest) s w =
      match scan sub (Scanner.new e.path e.magic_opens) w with
      | none => none
      | some (child, w1) => scanImpl rest (s.incNumScanned.push_back child) w1 := by
  unfold Entry.kind at h
  rw [scanImpl]
  simp only [scan]
  cases h1 : e.is_symlink with
  | none => simp [h1] at h
  | some b1 =>
    cases b1 with
    | true => simp [h1] at h
    | false =>
      cases h2 : e.is_directory with
      | none => simp [h1, h2] at h
      | some b2 =>
        cases b2 with
        | true => simp
        | false =>
          cases h3 : e.is_regular_file with
          | none => simp [h1, h2, h3] at h
          | some b3 => cases b3 <;> simp [h1, h2, h3] at h

/-- The walk of every listing returns, and does what `WalkOK` says. -/
theorem walkOK (l : Listing) : WalkOK l := by
  induction l with
  | done =>
    intro s w _
    refine ⟨[], s._stats, ?_, ?_, id, List.Forall₂.nil⟩
    · cases s; simp [scanImpl, Listing.entries, walkEvents, Scanner._scanners, Scanner._stats,
        Scanner._path, Scanner._thread, Scanner._magic, Scanner._numScanned]
    · intro k; simp [ownKeys]
  | error =>
    intro s w _
    refine ⟨[], s._stats.incr "__error__", ?_, ?_, fun h => Stats.WF_add h _ _, List.Forall₂.nil⟩
    · cases s; simp [scanImpl, Listing.entries, walkEvents, Scanner._scanners, Scanner._stats,
        Scanner._path, Scanner._thread, Scanner._magic, Scanner._numScanned, Scanner.bump]
    · intro k
      simp only [Stats.incr, Stats.get_add, ownKeys, List.count_cons, List.count_nil,
        beq_iff_eq]
      omega
  | entry e sub rest ihs ihr =>
    intro s w hw
    by_cases hk : e.kind = .directory
    · obtain ⟨child, hrun, hchild⟩ := scan_of_walk ihs e.path e.magic_opens w hw
      obtain ⟨kids, st, hrest, hget, hwf, hkids⟩ :=
        ihr (s.incNumScanned.push_back child)
          ⟨w.numThreadsAvailable,
            w.history ++ scanEvents e.path (walkEvents sub) w.numThreadsAvailable⟩ hw
      refine ⟨child :: kids, st, ?_, ?_, ?_, ?_⟩
      · rw [scanImpl_entry_dir _ _ _ _ _ hk]
        simp only [scan, hrun, hrest]
        cases s
        simp [Scanner.incNumScanned, Scanner.push_back, Scanner._scanners, Scanner._path,
          Scanner._thread, Scanner._magic, Scanner._numScanned, Listing.entries, walkEvents, hk]
        omega
      · intro k
        rw [hget k]
        cases s
        simp [Scanner.incNumScanned, Scanner.push_back, Scanner._stats, Scanner._magic,
          ownKeys, hk]
      · intro h
        apply hwf
        cases s
        simpa [Scanner.incNumScanned, Scanner.push_back, Scanner._stats] using h
      · simp only [dirEntries, hk, if_true]
        exact List.Forall₂.cons hchild hkids
    · obtain ⟨kids, st, hrest, hget, hwf, hkids⟩ :=
        ihr (s.incNumScanned.bump (entryKey s._magic e)) w hw
      refine ⟨kids, st, ?_, ?_, ?_, ?_⟩
      · rw [scanImpl_entry_key _ _ _ _ _ hk, hrest]
        cases s
        simp [Scanner.incNumScanned, Scanner.bump, Scanner._scanners, Scanner._path,
          Scanner._thread, Scanner._magic, Scanner._numScanned, Listing.entries, walkEvents, hk]
        omega
      · intro k
        rw [hget k]
        cases s
        simp only [Scanner.incNumScanned, Scanner.bump, Scanner._stats, Scanner._magic,
          Stats.incr, Stats.get_add, ownKeys, hk, if_false, List.count_cons]
        simp only [beq_iff_eq]
        omega
      · intro h
        apply hwf
        cases s
        simp only [Scanner.incNumScanned, Scanner.bump, Scanner._stats] at h ⊢
        exact Stats.WF_add h _ _
      · simpa [dirEntries, hk] using hkids

/-- The method `scan()` on a freshly built node returns, with the counter
put back and the counts of the whole subtree in the node. -/
theorem scan_fresh (l : Listing) (p : String) (m : Bool) (w : World)
    (hw : w.numThreadsAvailable < sizeMod) :
    ∃ node, scan l (Scanner.new p m) w = some
        (node, { numThreadsAvailable := w.numThreadsAvailable,
                 history := w.history ++ scanEvents p (walkEvents l) w.numThreadsAvailable }) ∧
      Scanned m p l node :=
  scan_of_walk (walkOK l) p m w hw

theorem directCount_eq (m : Bool) (l : Listing) (k : String) :
    directCount m l k = (ownKeys m l).count k := by
  obtain ⟨kids, st, hrun, hget, _, _⟩ := walkOK l (Scanner.new "" m) ⟨0, []⟩ (by simp [sizeMod])
  simp only [directCount, hrun, Scanner._stats, hget k]
  simp [Scanner.new, Scanner._stats, Scanner._magic, Stats.get]

theorem treeKeys_count_descendants (m : Bool) (l : Listing) (k : String) :
    (treeKeys m l).count k =
      (ownKeys m l).count k +
        ((descendants l).map (fun d => (ownKeys d.1 d.2).count k)).sum := by
  induction l generalizing m with
  | done => simp [treeKeys, ownKeys, descendants]
  | error => simp [treeKeys, ownKeys, descendants]
  | entry e sub rest ihs ihr =>
    by_cases h : e.kind = .directory
    · simp [treeKeys, ownKeys, descendants, h, ihs, ihr]; omega
    · simp [treeKeys, ownKeys, descendants, h, ihr, List.count_cons]; omega

theorem matched_walk (l : Listing) : ∀ (c : Nat) (stack : List (String × Nat)) (tail : List Event),
    matched stack (walkEvents l c ++ tail) = matched stack tail := by
  induction l with
  | done => intro c stack tail; simp [walkEvents]
  | error => intro c stack tail; simp [walkEvents]
  | entry e sub rest ihs ihr =>
    intro c stack tail
    by_cases h : e.kind = .directory
    · by_cases hc : c = 0
      · simp [walkEvents, h, scanEvents, hc, matched, ihs, ihr]
      · simp [walkEvents, h, scanEvents, hc, matched, ihs, ihr]
    · simp [walkEvents, h, ihr]

theorem matched_scan (l : Listing) (p : String) (c : Nat) :
    matched [] (scanEvents p (walkEvents l) c) = true := by
  by_cases hc : c = 0
  · have := matched_walk l 0 [] []
    simp only [List.append_nil] at this
    simp [scanEvents, hc, matched, this]
  · simp [scanEvents, hc, matched, matched_walk]

theorem acquires_append (a b : List Event) : acquires (a ++ b) = acquires a ++ acquires b := by
  simp [acquires, List.filterMap_append]

theorem releases_append (a b : List Event) : releases (a ++ b) = releases a ++ releases b := by
  simp [releases, List.filterMap_append]

theorem acquires_perm_releases_scan (p : String) (walk : Nat → List Event)
    (h : ∀ c, (acquires (walk c)).Perm (releases (walk c))) (c : Nat) :
    (acquires (scanEvents p walk c)).Perm (releases (scanEvents p walk c)) := by
  by_cases hc : c = 0
  · have e1 : acquires (scanEvents p walk c) = acquires (walk 0) := by
      simp [scanEvents, hc, acquires]
    have e2 : releases (scanEvents p walk c) = releases (walk 0) := by
      simp [scanEvents, hc, releases]
    rw [e1, e2]
    exact h 0
  · have e1 : acquires (scanEvents p walk c) = p :: acquires (walk (c - 1)) := by
      simp [scanEvents, hc, acquires, List.filterMap_append]
    have e2 : releases (scanEvents p walk c) = releases (walk (c - 1)) ++ [p] := by
      simp [scanEvents, hc, releases, List.filterMap_append]
    rw [e1, e2]
    exact (List.Perm.cons p (h (c - 1))).trans (List.perm_append_singleton p _).symm

theorem acquires_perm_releases_walk (l : Listing) :
    ∀ c, (acquires (walkEvents l c)).Perm (releases (walkEvents l c)) := by
  induction l with
  | done => intro c; simp [walkEvents, acquires, releases]
  | error => intro c; simp [walkEvents, acquires, releases]
  | entry e sub rest ihs ihr =>
    intro c
    by_cases h : e.kind = .directory
    · simp only [walkEvents, h, if_true, acquires_append, releases_append]
      exact List.Perm.append (acquires_perm_releases_scan e.path _ ihs c) (ihr c)
    · simp only [walkEvents, h, if_false]
      exact ihr c

/-! ## Claims on the counts and on the walk -/

/-- C1: for every tree and every initial worker budget, `scan()` on the root
returns, and after the join made by `dumpResults()` the count the root holds
for each label is the sum, over the root and all directories below it, of the
counts each directory observed directly in its own walk; the walk of a
directory observes the same counts at every value of the counter, and two
runs with different budgets end with the same total for every label. -/
theorem C1_root_totals (l : Listing) (p : String) (m : Bool) (B : Nat) (hB : B < sizeMod)
    (sort : List StatsElt → List StatsElt) :
    ∃ S w, scan l (Scanner.new p m) ⟨B, []⟩ = some (S, w) ∧
      (∀ k, (dumpResults sort S w).2.1._stats.get k =
        (((m, l) :: descendants l).map (fun d => directCount d.1 d.2 k)).sum) ∧
      (∀ (d : Bool × Listing) (q : String) (v : World), v.numThreadsAvailable < sizeMod →
        ∃ s v1, scanImpl d.2 (Scanner.new q d.1) v = some (s, v1) ∧
          ∀ k, s._stats.get k = directCount d.1 d.2 k) ∧
      (∀ B2, B2 < sizeMod →
        ∃ S2 w2, scan l (Scanner.new p m) ⟨B2, []⟩ = some (S2, w2) ∧
          ∀ k, (dumpResults sort S2 w2).2.1._stats.get k =
            (dumpResults sort S w).2.1._stats.get k) := by
  have total : ∀ B1, B1 < sizeMod →
      ∃ S1 w1, scan l (Scanner.new p m) ⟨B1, []⟩ = some (S1, w1) ∧
        ∀ k, (dumpResults sort S1 w1).2.1._stats.get k =
          (((m, l) :: descendants l).map (fun d => directCount d.1 d.2 k)).sum := by
    intro B1 hB1
    obtain ⟨node, hrun, hset, _, _, hget, _⟩ := scan_fresh l p m ⟨B1, []⟩ hB1
    refine ⟨node, _, hrun, fun k => ?_⟩
    simp only [dumpResults, joinThreads_of_settled node _ hset, hget k,
      treeKeys_count_descendants, List.map_cons, List.sum_cons, directCount_eq]
  obtain ⟨S, w, hrun, hsum⟩ := total B hB
  refine ⟨S, w, hrun, hsum, ?_, ?_⟩
  · intro d q v hv
    obtain ⟨kids, st, hwalk, hget, _, _⟩ := walkOK d.2 (Scanner.new q d.1) v hv
    refine ⟨_, _, hwalk, fun k => ?_⟩
    simp only [Scanner._stats, hget k, directCount_eq]
    simp [Scanner.new, Scanner._stats, Scanner._magic, Stats.get]
  · intro B2 hB2
    obtain ⟨S2, w2, hrun2, hsum2⟩ := total B2 hB2
    exact ⟨S2, w2, hrun2, fun k => by rw [hsum2 k, hsum k]⟩

/-- C2: for every tree and every initial value `B` of the counter, `scan()`
on the root returns with the counter at `B` again; in the log every decrement
is closed by one increment made on the same node that puts the counter back
to the value the decrement found, the nodes that decrement are the nodes that
increment, and the join of `dumpResults()` leaves the counter at `B`. -/
theorem C2_budget_conserved (l : Listing) (p : String) (m : Bool) (B : Nat)
    (hB : B < sizeMod) (sort : List StatsElt → List StatsElt) :
    ∃ S w, scan l (Scanner.new p m) ⟨B, []⟩ = some (S, w) ∧
      w.numThreadsAvailable = B ∧
      matched [] w.history = true ∧
      (acquires w.history).Perm (releases w.history) ∧
      S._thread = false ∧
      (dumpResults sort S w).2.2 = w := by
  obtain ⟨node, hrun, hset, _, _, _, _⟩ := scan_fresh l p m ⟨B, []⟩ hB
  refine ⟨node, _, hrun, rfl, ?_, ?_, ?_, ?_⟩
  · simpa using matched_scan l p B
  · simp only [List.nil_append]
    exact acquires_perm_releases_scan p _ (acquires_perm_releases_walk l) B
  · cases node
    simp only [Scanner.settled, Bool.and_eq_true, Bool.not_eq_true'] at hset
    exact hset.1.1
  · simp [dumpResults, joinThreads_of_settled node _ hset]

/-- C3: after `joinThreads()` on any node every child holds an empty count
map, and a further `joinThreads()` on that node, as the one `dumpResults()`
makes, changes neither the node nor the counter: no count is merged twice. -/
theorem C3_merge_once (s : Scanner) (w v : World) (sort : List StatsElt → List StatsElt) :
    (∀ c ∈ (joinThreads s w).1._scanners, c._stats = []) ∧
    (joinThreads (joinThreads s w).1 v).1._stats = (joinThreads s w).1._stats ∧
    joinThreads (joinThreads s w).1 v = ((joinThreads s w).1, v) ∧
    (dumpResults sort (joinThreads s w).1 v).2 = ((joinThreads s w).1, v) := by
  have hset := joinThreads_settled s w
  have hid := joinThreads_of_settled _ v hset
  refine ⟨?_, by rw [hid], hid, by simp [dumpResults, hid]⟩
  intro c hc
  generalize joinThreads s w = r at hset hc
  obtain ⟨node, w1⟩ := r
  cases node
  simp only [Scanner.settled, Bool.and_eq_true] at hset
  exact ((settledKids_iff _).mp hset.2 c hc).2

theorem kind_directory_iff (e : Entry) : e.kind = .directory ↔ e.isDirectory = true := by
  obtain ⟨_, sy, di, re, _, _⟩ := e
  rcases sy with _ | _ | _ <;> rcases di with _ | _ | _ <;> rcases re with _ | _ | _ <;>
    simp [Entry.kind, Entry.isDirectory]

theorem dirEntries_paths (l : Listing) :
    (dirEntries l).map (fun d => d.1.path) = (l.entries.filter Entry.isDirectory).map Entry.path := by
  induction l with
  | done => rfl
  | error => rfl
  | entry e sub rest _ ih =>
    by_cases h : e.kind = .directory
    · have h2 := (kind_directory_iff e).mp h
      simp [dirEntries, Listing.entries, h, h2, List.filter_cons, ih]
    · have h2 : e.isDirectory = false := by
        cases hb : e.isDirectory
        · rfl
        · exact absurd ((kind_directory_iff e).mpr hb) h
      simp [dirEntries, Listing.entries, h, h2, List.filter_cons, ih]

theorem kids_paths {ds : List (Entry × Listing)} {kids : List Scanner}
    (h : List.Forall₂ (fun d kid => Scanned d.1.magic_opens d.1.path d.2 kid) ds kids) :
    kids.map Scanner._path = ds.map (fun d => d.1.path) := by
  induction h with
  | nil => rfl
  | cons hd _ ih => simp [hd.2.1, ih]

theorem one_category (e : Entry)
    (hq : e.is_symlink ≠ none ∧ e.is_directory ≠ none ∧ e.is_regular_file ≠ none) :
    e.isSymlink.toNat + e.isDirectory.toNat + e.isRegular.toNat + e.isOther.toNat = 1 := by
  obtain ⟨_, sy, di, re, _, _⟩ := e
  rcases sy with _ | _ | _ <;> rcases di with _ | _ | _ <;> rcases re with _ | _ | _ <;>
    simp [Entry.isSymlink, Entry.isDirectory, Entry.isRegular, Entry.isOther] at hq ⊢

theorem entryKey_contrib (m : Bool) (e : Entry) (k : String)
    (hq : e.is_symlink ≠ none ∧ e.is_directory ≠ none ∧ e.is_regular_file ≠ none)
    (hk : e.kind ≠ .directory) :
    (if entryKey m e = k then 1 else 0) =
      (if k = "__symlink__" then e.isSymlink.toNat else 0) +
      (if k = "__other__" then e.isOther.toNat else 0) +
      (e.isRegular && decide (magicKey m e.magic_file = k)).toNat := by
  obtain ⟨pa, sy, di, re, mo, mf⟩ := e
  rcases sy with _ | _ | _
  · simp at hq
  · rcases di with _ | _ | _
    · simp at hq
    · rcases re with _ | _ | _
      · simp at hq
      · have e1 : entryKey m ⟨pa, some false, some false, some false, mo, mf⟩ = "__other__" := rfl
        rw [e1]
        by_cases h : k = "__other__"
        · subst h; simp [Entry.isSymlink, Entry.isOther, Entry.isRegular]
        · have h2 : ¬ "__other__" = k := fun x => h x.symm
          simp [Entry.isSymlink, Entry.isOther, Entry.isRegular, h, h2]
      · have e1 : entryKey m ⟨pa, some false, some false, some true, mo, mf⟩ =
            magicKey m mf := rfl
        rw [e1]
        by_cases h : magicKey m mf = k
        · simp [Entry.isSymlink, Entry.isOther, Entry.isRegular, h]
        · simp [Entry.isSymlink, Entry.isOther, Entry.isRegular, h]
    · exact absurd rfl hk
  · have e1 : entryKey m ⟨pa, some true, di, re, mo, mf⟩ = "__symlink__" := rfl
    rw [e1]
    by_cases h : k = "__symlink__"
    · subst h; simp [Entry.isSymlink, Entry.isOther, Entry.isRegular]
    · have h2 : ¬ "__symlink__" = k := fun x => h x.symm
      simp [Entry.isSymlink, Entry.isOther, Entry.isRegular, h, h2]

theorem directory_contrib (m : Bool) (e : Entry) (k : String) (hk : e.kind = .directory) :
    (if k = "__symlink__" then e.isSymlink.toNat else 0) +
      (if k = "__other__" then e.isOther.toNat else 0) +
      (e.isRegular && decide (magicKey m e.magic_file = k)).toNat = 0 := by
  obtain ⟨pa, sy, di, re, mo, mf⟩ := e
  rcases sy with _ | _ | _ <;> rcases di with _ | _ | _ <;> rcases re with _ | _ | _ <;>
    simp [Entry.kind, Entry.isSymlink, Entry.isOther, Entry.isRegular] at hk ⊢

theorem countP_cons_toNat (q : Entry → Bool) (e : Entry) (l : List Entry) :
    (e :: l).countP q = l.countP q + (q e).toNat := by
  rw [List.countP_cons]
  cases q e <;> simp

theorem ownKeys_count (m : Bool) (l : Listing) (k : String) (hlist : l.throws = false)
    (hq : ∀ e ∈ l.entries,
      e.is_symlink ≠ none ∧ e.is_directory ≠ none ∧ e.is_regular_file ≠ none) :
    (ownKeys m l).count k =
      (if k = "__symlink__" then l.entries.countP Entry.isSymlink else 0) +
      (if k = "__other__" then l.entries.countP Entry.isOther else 0) +
      l.entries.countP (fun e => e.isRegular && decide (magicKey m e.magic_file = k)) := by
  induction l with
  | done => simp [ownKeys, Listing.entries]
  | error => simp [Listing.throws] at hlist
  | entry e sub rest _ ih =>
    have ih := ih (by simpa [Listing.throws] using hlist)
      (fun e he => hq e (by simp [Listing.entries, he]))
    have he := hq e (by simp [Listing.entries])
    simp only [Listing.entries, countP_cons_toNat]
    by_cases hk : e.kind = .directory
    · have hd := directory_contrib m e k hk
      simp only [ownKeys, hk, if_true, ih]
      split_ifs at hd ⊢ <;> omega
    · have hc := entryKey_contrib m e k he hk
      simp only [ownKeys, hk, if_false, List.count_cons, beq_iff_eq, ih]
      split_ifs at hc ⊢ <;> omega

theorem treeKeys_unreadable {l0 l1 : Listing} (h : OneUnreadable l0 l1) (m : Bool)
    (k : String) :
    (treeKeys m l1).count k = (treeKeys m l0).count k + (if k = "__error__" then 1 else 0) := by
  induction h generalizing m with
  | here e rest hk =>
    simp only [treeKeys, hk, if_true, List.count_append, List.count_cons, List.count_nil,
      beq_iff_eq]
    by_cases hk2 : k = "__error__"
    · subst hk2; simp; omega
    · have hk3 : ¬ "__error__" = k := fun x => hk2 x.symm
      simp [hk2, hk3]
  | inside e sub0 sub1 rest hk _ ih =>
    simp only [treeKeys, hk, if_true, List.count_append, ih]
    omega
  | later e sub rest0 rest1 _ ih =>
    by_cases hk : e.kind = .directory
    · simp only [treeKeys, hk, if_true, List.count_append, ih]
      omega
    · simp only [treeKeys, hk, if_false, List.count_cons, ih]
      omega

theorem substr0_find (cs : List Char) :
    substr0 cs (find_first_of_comma cs) = cs.takeWhile notComma := by
  induction cs with
  | nil => rfl
  | cons c cs ih =>
    by_cases h : c = ','
    · subst h
      rfl
    · have hn : notComma c = true := by simp [notComma, h]
      rw [List.takeWhile_cons, hn, if_pos rfl, ← ih]
      simp only [find_first_of_comma, h, if_false]
      cases find_first_of_comma cs <;> rfl

theorem takeWhile_no_comma (cs : List Char) : ',' ∉ cs.takeWhile notComma := by
  intro h
  have := List.mem_takeWhile_imp h
  simp [notComma] at this

theorem takeWhile_all (cs : List Char) (h : ',' ∉ cs) : cs.takeWhile notComma = cs := by
  rw [List.takeWhile_eq_self_iff]
  intro c hc
  simp only [notComma, bne_iff_ne, ne_eq]
  rintro rfl
  exact h hc

/-- C4: for a directory whose listing ends normally and whose entry-type
tests all answer, the walk `scanImpl()` of a freshly built node returns; every
entry falls in exactly one of symlink, directory, regular file, other (symlink
tested first, then directory, then regular file); the count under a key is the
number of symlinks if the key is `__symlink__`, plus the number of other
entries if the key is `__other__`, plus the number of regular files whose
`addMagic` key is that key; the children are the non-symlink directory
entries, one each, in listing order, so a symlink to a directory gets none;
every entry is counted in `_numScanned`.  On scenario B the counts are exactly
text 2, image 1, `__symlink__` 1, with no child. -/
theorem C4_walk_classifies (l : Listing) (p : String) (m : Bool) (w : World)
    (hw : w.numThreadsAvailable < sizeMod) (hlist : l.throws = false)
    (hq : ∀ e ∈ l.entries,
      e.is_symlink ≠ none ∧ e.is_directory ≠ none ∧ e.is_regular_file ≠ none) :
    (∃ s w1, scanImpl l (Scanner.new p m) w = some (s, w1) ∧
      (∀ k, s._stats.get k =
        (if k = "__symlink__" then l.entries.countP Entry.isSymlink else 0) +
        (if k = "__other__" then l.entries.countP Entry.isOther else 0) +
        l.entries.countP (fun e => e.isRegular && decide (magicKey m e.magic_file = k))) ∧
      s._scanners.map Scanner._path =
        (l.entries.filter Entry.isDirectory).map Entry.path ∧
      s._numScanned = l.entries.length) ∧
    (∀ e ∈ l.entries,
      e.isSymlink.toNat + e.isDirectory.toNat + e.isRegular.toNat + e.isOther.toNat = 1) ∧
    (∀ e ∈ l.entries, e.is_symlink = some true → e.isDirectory = false) ∧
    (scanImpl scenarioB (Scanner.new "." true) ⟨0, []⟩).map
        (fun r => (r.1._stats, r.1._scanners.length)) =
      some ([("text", 2), ("image", 1), ("__symlink__", 1)], 0) := by
  refine ⟨?_, fun e he => one_category e (hq e he), ?_, by decide⟩
  · obtain ⟨kids, st, hrun, hget, _, hkids⟩ := walkOK l (Scanner.new p m) w hw
    refine ⟨_, _, hrun, fun k => ?_, ?_, ?_⟩
    · simp only [Scanner._stats, hget k, ← ownKeys_count m l k hlist hq]
      simp [Scanner.new, Scanner._stats, Scanner._magic, Stats.get]
    · simp only [Scanner._scanners, Scanner.new, List.nil_append, kids_paths hkids,
        dirEntries_paths]
    · simp [Scanner._numScanned, Scanner.new]
  · intro e _ hs
    simp [Entry.isDirectory, hs]

/-- C5: an entry for which a type test reached by `scanImpl()` throws adds
exactly one to the count under `__error__`, changes no other count, and the
walk goes on with the entries after it; a listing that throws adds one to
`__error__` of its node and the walk returns; every walk returns having
counted all entries the listing yields; and when one scanned directory of a
tree is unreadable instead of empty, the scan of the root still returns and
its final counts are those of the tree with that directory empty, plus one
under `__error__`, which is therefore at least 1. -/
theorem C5_walk_errors_counted (e : Entry) (sub rest : Listing) (s : Scanner) (w : World)
    (hw : w.numThreadsAvailable < sizeMod) (hthrow : e.testThrows)
    (l0 l1 : Listing) (h : OneUnreadable l0 l1) (p : String) (m : Bool) (B : Nat)
    (hB : B < sizeMod) (sort : List StatsElt → List StatsElt) :
    scanImpl (.entry e sub rest) s w = scanImpl rest (s.incNumScanned.bump "__error__") w ∧
    (∀ k, (s.incNumScanned.bump "__error__")._stats.get k =
      s._stats.get k + (if k = "__error__" then 1 else 0)) ∧
    scanImpl .error s w = some (s.bump "__error__", w) ∧
    (∀ l : Listing, ∃ s1 w1, scanImpl l s w = some (s1, w1) ∧
      s1._numScanned = s._numScanned + l.entries.length) ∧
    ∃ S0 w0 S1 w1,
      scan l0 (Scanner.new p m) ⟨B, []⟩ = some (S0, w0) ∧
      scan l1 (Scanner.new p m) ⟨B, []⟩ = some (S1, w1) ∧
      (∀ k, (dumpResults sort S1 w1).2.1._stats.get k =
        (dumpResults sort S0 w0).2.1._stats.get k + (if k = "__error__" then 1 else 0)) ∧
      1 ≤ (dumpResults sort S1 w1).2.1._stats.get "__error__" := by
  have hkind : e.kind = .failed := by
    obtain ⟨pa, sy, di, re, mo, mf⟩ := e
    rcases hthrow with h1 | ⟨h1, h2⟩ | ⟨h1, h2, h3⟩
    · simp only at h1; subst h1; rfl
    · simp only at h1 h2; subst h1 h2; rfl
    · simp only at h1 h2 h3; subst h1 h2 h3; rfl
  have hne : e.kind ≠ .directory := by rw [hkind]; decide
  have hkey : entryKey s._magic e = "__error__" := by simp [entryKey, hkind]
  refine ⟨?_, ?_, rfl, ?_, ?_⟩
  · rw [scanImpl_entry_key _ _ _ _ _ hne, hkey]
  · intro k
    cases s
    simp only [Scanner.incNumScanned, Scanner.bump, Scanner._stats, Stats.incr, Stats.get_add]
    by_cases hk : k = "__error__"
    · subst hk; simp
    · have hk2 : ¬ "__error__" = k := fun x => hk x.symm
      simp [hk, hk2]
  · intro l
    obtain ⟨kids, st, hrun, _, _, _⟩ := walkOK l s w hw
    exact ⟨_, _, hrun, rfl⟩
  · obtain ⟨n0, hrun0, hset0, _, _, hget0, _⟩ := scan_fresh l0 p m ⟨B, []⟩ hB
    obtain ⟨n1, hrun1, hset1, _, _, hget1, _⟩ := scan_fresh l1 p m ⟨B, []⟩ hB
    have key : ∀ k, (dumpResults sort n1 ⟨B, [] ++ scanEvents p (walkEvents l1) B⟩).2.1._stats.get k =
        (dumpResults sort n0 ⟨B, [] ++ scanEvents p (walkEvents l0) B⟩).2.1._stats.get k +
          (if k = "__error__" then 1 else 0) := by
      intro k
      simp only [dumpResults, joinThreads_of_settled _ _ hset0, joinThreads_of_settled _ _ hset1,
        hget0 k, hget1 k, treeKeys_unreadable h m k]
    refine ⟨n0, _, n1, _, hrun0, hrun1, key, ?_⟩
    rw [key "__error__"]
    simp

/-- C6: `addMagic` adds exactly one under exactly one key and changes nothing
else in the node; with a classifier handle and a description `d` the key is
the part of `d` before its first comma, all of `d` when it has none; without
a handle, or when `magic_file` fails, the key is `__magic_error__`; the key
never contains a comma. -/
theorem C6_addMagic_one_key (s : Scanner) (desc : Option String) (d : String) (m : Bool) :
    (∀ k, (s.addMagic desc)._stats.get k =
      s._stats.get k + (if k = magicKey s._magic desc then 1 else 0)) ∧
    ((s.addMagic desc)._scanners = s._scanners ∧ (s.addMagic desc)._path = s._path ∧
      (s.addMagic desc)._thread = s._thread ∧ (s.addMagic desc)._magic = s._magic ∧
      (s.addMagic desc)._numScanned = s._numScanned) ∧
    magicKey true (some d) = String.mk (d.data.takeWhile notComma) ∧
    (magicKey true (some d) = if ',' ∈ d.data then
        String.mk (d.data.takeWhile notComma) else d) ∧
    magicKey false desc = "__magic_error__" ∧
    magicKey m none = "__magic_error__" ∧
    ',' ∉ (magicKey m desc).data := by
  have hlabel : ∀ x : String,
      magicLabel x = String.mk (x.data.takeWhile notComma) := by
    intro x
    simp only [magicLabel, substr0_find]
  refine ⟨?_, ?_, ?_, ?_, ?_, ?_, ?_⟩
  · intro k
    obtain ⟨kids, st, pa, th, mg, n⟩ := s
    simp only [Scanner.addMagic, Scanner.bump, Scanner._stats, Scanner._magic, Stats.incr,
      Stats.get_add]
    by_cases hk : k = magicKey mg desc
    · rw [if_pos hk, if_pos hk.symm]
    · rw [if_neg hk, if_neg (fun x => hk x.symm)]
  · cases s
    simp [Scanner.addMagic, Scanner.bump, Scanner._scanners, Scanner._path, Scanner._thread,
      Scanner._magic, Scanner._numScanned]
  · simp only [magicKey, hlabel]
  · simp only [magicKey, hlabel]
    split_ifs with hc
    · rfl
    · rw [takeWhile_all _ hc]
  · cases desc <;> rfl
  · cases m <;> rfl
  · cases m
    · have hf : magicKey false desc = "__magic_error__" := by cases desc <;> rfl
      rw [hf]
      decide
    · cases desc with
      | none => decide
      | some x =>
        simp only [magicKey, hlabel]
        exact takeWhile_no_comma _

/-! ## Claims on the log of the counter -/

theorem scanEvents_inner (p : String) (walk : Nat → List Event) (c : Nat) :
    scanEvents p walk c =
      Event.decision p c (decide (c ≠ 0)) ::
        ((if c = 0 then [] else [Event.acquire p c (c - 1)]) ++ walk (c - 1) ++
          (if c = 0 then [] else [Event.release p (c - 1) c])) := by
  by_cases hc : c = 0
  · subst hc; simp [scanEvents]
  · simp [scanEvents, hc]

theorem scanEvents_bounds_of (p : String) (walk : Nat → List Event) (H : Nat)
    (hwalk : ∀ c, ∀ ev ∈ walk c, ev.counter ≤ c ∧ c ≤ ev.counter + H ∧ ev.exact = true)
    (c : Nat) :
    ∀ ev ∈ scanEvents p walk c,
      ev.counter ≤ c ∧ c ≤ ev.counter + (H + 1) ∧ ev.exact = true := by
  intro ev h
  by_cases hc : c = 0
  · subst hc
    simp only [scanEvents, if_true, List.mem_cons] at h
    rcases h with rfl | h
    · simp [Event.counter, Event.exact]
    · obtain ⟨h1, h2, h3⟩ := hwalk 0 ev h
      exact ⟨h1, by omega, h3⟩
  · simp only [scanEvents, hc, if_false, List.mem_cons, List.mem_append,
      List.mem_singleton, List.not_mem_nil, or_false] at h
    rcases h with rfl | rfl | h | rfl
    · simp [Event.counter, Event.exact, hc]
    · refine ⟨by simp only [Event.counter]; omega, by simp only [Event.counter]; omega, ?_⟩
      simp only [Event.exact, Bool.and_eq_true, decide_eq_true_eq]
      omega
    · obtain ⟨h1, h2, h3⟩ := hwalk (c - 1) ev h
      exact ⟨by omega, by omega, h3⟩
    · refine ⟨by simp only [Event.counter]; omega, by simp only [Event.counter]; omega, ?_⟩
      simp only [Event.exact, decide_eq_true_eq]
      omega

theorem walkEvents_bounds (l : Listing) : ∀ (c : Nat), ∀ ev ∈ walkEvents l c,
    ev.counter ≤ c ∧ c ≤ ev.counter + height l ∧ ev.exact = true := by
  induction l with
  | done => intro c ev h; simp [walkEvents] at h
  | error => intro c ev h; simp [walkEvents] at h
  | entry e sub rest ihs ihr =>
    intro c ev h
    by_cases hk : e.kind = .directory
    · have hm1 : height sub + 1 ≤ max (height sub + 1) (height rest) := Nat.le_max_left _ _
      have hm2 : height rest ≤ max (height sub + 1) (height rest) := Nat.le_max_right _ _
      simp only [walkEvents, hk, if_true, height, List.mem_append] at h ⊢
      rcases h with h | h
      · obtain ⟨h1, h2, h3⟩ := scanEvents_bounds_of e.path (walkEvents sub) (height sub) ihs c ev h
        exact ⟨h1, by omega, h3⟩
      · obtain ⟨h1, h2, h3⟩ := ihr c ev h
        exact ⟨h1, by omega, h3⟩
    · simp only [walkEvents, hk, if_false, height] at h ⊢
      exact ihr c ev h

theorem scanEvents_bounds (l : Listing) (p : String) (c : Nat) :
    ∀ ev ∈ scanEvents p (walkEvents l) c,
      ev.counter ≤ c ∧ c ≤ ev.counter + (height l + 1) ∧ ev.exact = true :=
  scanEvents_bounds_of p (walkEvents l) (height l) (walkEvents_bounds l) c

theorem walkEvents_zero (l : Listing) : ∀ ev ∈ walkEvents l 0, ∃ q, ev = Event.decision q 0 false := by
  induction l with
  | done => intro ev h; simp [walkEvents] at h
  | error => intro ev h; simp [walkEvents] at h
  | entry e sub rest ihs ihr =>
    intro ev h
    by_cases hk : e.kind = .directory
    · simp only [walkEvents, hk, if_true, scanEvents, List.mem_append, List.mem_cons] at h
      rcases h with (rfl | h) | h
      · exact ⟨_, rfl⟩
      · exact ihs ev h
      · exact ihr ev h
    · simp only [walkEvents, hk, if_false] at h
      exact ihr ev h

theorem acquires_of_decisions (evs : List Event)
    (h : ∀ ev ∈ evs, ∃ q, ev = Event.decision q 0 false) : acquires evs = [] := by
  induction evs with
  | nil => rfl
  | cons ev evs ih =>
    obtain ⟨q, rfl⟩ := h ev (List.mem_cons_self _ _)
    simp only [acquires, List.filterMap_cons]
    exact ih (fun x hx => h x (List.mem_cons_of_mem _ hx))

theorem decisions_append (a b : List Event) : decisions (a ++ b) = decisions a ++ decisions b := by
  induction a with
  | nil => rfl
  | cons ev a ih => cases ev <;> simp [decisions, ih]

theorem decisions_walk (B : Nat) (l : Listing) : ∀ d,
    decisions (walkEvents l (B - d)) =
      (dirDepths l d).map (fun x => (x.1, B - x.2, decide (x.2 < B))) := by
  induction l with
  | done => intro d; rfl
  | error => intro d; rfl
  | entry e sub rest ihs ihr =>
    intro d
    by_cases hk : e.kind = .directory
    · have hs := ihs (d + 1)
      have e1 : B - d - 1 = B - (d + 1) := by omega
      simp only [walkEvents, hk, if_true, dirDepths, scanEvents_inner, decisions_append,
        decisions, List.map_cons, List.map_append, ihr d, e1, hs]
      by_cases hc : B - d = 0
      · have : ¬ d < B := by omega
        simp [hc, this, decisions]
      · have : d < B := by omega
        simp [hc, this, decisions]
    · simp only [walkEvents, hk, if_false, dirDepths]
      exact ihr d

theorem acquires_walk (B : Nat) (l : Listing) : ∀ d,
    acquires (walkEvents l (B - d)) =
      ((dirDepths l d).filter (fun x => decide (x.2 < B))).map (fun x => x.1) := by
  induction l with
  | done => intro d; rfl
  | error => intro d; rfl
  | entry e sub rest ihs ihr =>
    intro d
    by_cases hk : e.kind = .directory
    · have hs := ihs (d + 1)
      have e1 : B - d - 1 = B - (d + 1) := by omega
      simp only [walkEvents, hk, if_true, dirDepths, scanEvents_inner, acquires_append,
        ihr d, e1, List.filter_cons, List.filter_append, List.map_append]
      by_cases hc : B - d = 0
      · have : ¬ d < B := by omega
        simp [hc, this, acquires, ← hs]
      · have : d < B := by omega
        simp [hc, this, acquires, ← hs]
    · simp only [walkEvents, hk, if_false, dirDepths]
      exact ihr d

theorem walkEvents_children (l : Listing) (c : Nat) :
    walkEvents l c =
      (dirEntries l).flatMap (fun d => scanEvents d.1.path (walkEvents d.2) c) := by
  induction l with
  | done => rfl
  | error => rfl
  | entry e sub rest _ ihr =>
    by_cases hk : e.kind = .directory
    · simp only [walkEvents, dirEntries, hk, if_true, List.flatMap_cons, ihr]
    · simp only [walkEvents, dirEntries, hk, if_false, ihr]

/-- C7 as stated fails in the clause that the counter is `c - 1` while the
walk runs: on scenario D entered with the counter at 2 the worker of the root
walks with the counter at 1, and while that walk runs `scan()` of the child
`d1` takes the counter to 0; the counter goes 2, 1, 1, 0, 0, 0, 1, 2. -/
theorem C7_counter_dips_during_walk :
    (∃ S, scan scenarioD (Scanner.new "." true) ⟨2, []⟩ =
      some (S, ⟨2, [Event.decision "." 2 true, Event.acquire "." 2 1,
        Event.decision "d1" 1 true, Event.acquire "d1" 1 0,
        Event.decision "d1/d2" 0 false, Event.decision "d1/d3" 0 false,
        Event.release "d1" 0 1, Event.release "." 1 2]⟩)) ∧
    (∃ s1, scanImpl scenarioD (Scanner.new "." true)
        ⟨2 - 1, [Event.decision "." 2 true, Event.acquire "." 2 (2 - 1)]⟩ =
      some (s1, ⟨2 - 1, [Event.decision "." 2 true, Event.acquire "." 2 (2 - 1),
        Event.decision "d1" 1 true, Event.acquire "d1" 1 0,
        Event.decision "d1/d2" 0 false, Event.decision "d1/d3" 0 false,
        Event.release "d1" 0 1]⟩)) ∧
    (Event.acquire "d1" 1 0).counter ≠ 2 - 1 ∧
    ¬ (∀ ev ∈ walkEvents scenarioD (2 - 1), ev.counter = 2 - 1) := by
  refine ⟨?_, ?_, by decide, by decide⟩
  · obtain ⟨node, hrun, _⟩ := scan_fresh scenarioD "." true ⟨2, []⟩ (by decide)
    rw [hrun]
    exact ⟨node, rfl⟩
  · obtain ⟨kids, st, hrun, _⟩ := walkOK scenarioD (Scanner.new "." true)
      ⟨2 - 1, [Event.decision "." 2 true, Event.acquire "." 2 (2 - 1)]⟩ (by decide)
    rw [hrun]
    exact ⟨_, rfl⟩

/-- C7 amended: `scan()` on a freshly built node acts as a try-acquire on the
counter.  Entered with the counter at 0, the walk runs inline: no decrement is
made, the counter is 0 at every access during the walk and when `scan()`
returns.  Entered with the counter at `c > 0`, the counter is decremented to
`c - 1`, the walk runs with the counter at `c - 1` at its start, at its end
and each time it enters `scan()` of a child (what the walk logs is, child
after child, the log of a `scan()` entered at `c - 1`), the scans nested in it
never take the counter above `c - 1`, and the join puts it back to `c`.  In
both cases `scan()` returns, every decrement of the scan starts above zero and
takes exactly one off, and the counter never exceeds its initial value. -/
theorem C7_dispatch_tryAcquire (l : Listing) (p : String) (m : Bool) (w : World)
    (hw : w.numThreadsAvailable < sizeMod) :
    (if w.numThreadsAvailable = 0 then
      ∃ s1 evs S,
        scanImpl l (Scanner.new p m) ⟨0, w.history ++ [Event.decision p 0 false]⟩ =
          some (s1, ⟨0, w.history ++ [Event.decision p 0 false] ++ evs⟩) ∧
        (∀ ev ∈ evs, ev.counter = 0) ∧ acquires evs = [] ∧
        evs = (dirEntries l).flatMap (fun d => scanEvents d.1.path (walkEvents d.2) 0) ∧
        scan l (Scanner.new p m) w =
          some (S, ⟨0, w.history ++ [Event.decision p 0 false] ++ evs⟩)
    else
      ∃ s1 evs S,
        scanImpl l (Scanner.new p m)
            ⟨w.numThreadsAvailable - 1,
              w.history ++ [Event.decision p w.numThreadsAvailable true,
                Event.acquire p w.numThreadsAvailable (w.numThreadsAvailable - 1)]⟩ =
          some (s1, ⟨w.numThreadsAvailable - 1,
            w.history ++ [Event.decision p w.numThreadsAvailable true,
              Event.acquire p w.numThreadsAvailable (w.numThreadsAvailable - 1)] ++ evs⟩) ∧
        (∀ ev ∈ evs, ev.counter ≤ w.numThreadsAvailable - 1) ∧
        evs = (dirEntries l).flatMap
          (fun d => scanEvents d.1.path (walkEvents d.2) (w.numThreadsAvailable - 1)) ∧
        scan l (Scanner.new p m) w =
          some (S, ⟨w.numThreadsAvailable,
            w.history ++ [Event.decision p w.numThreadsAvailable true,
              Event.acquire p w.numThreadsAvailable (w.numThreadsAvailable - 1)] ++ evs ++
              [Event.release p (w.numThreadsAvailable - 1) w.numThreadsAvailable]⟩)) ∧
    ∃ S evs, scan l (Scanner.new p m) w = some (S, ⟨w.numThreadsAvailable, w.history ++ evs⟩) ∧
      ∀ ev ∈ evs, ev.exact = true ∧ ev.counter ≤ w.numThreadsAvailable := by
  obtain ⟨c, hist⟩ := w
  simp only at hw ⊢
  obtain ⟨node, hrun, _⟩ := scan_fresh l p m ⟨c, hist⟩ hw
  simp only at hrun
  refine ⟨?_, node, _, hrun, fun ev hev => ?_⟩
  · by_cases hc : c = 0
    · subst hc
      rw [if_pos rfl]
      obtain ⟨kids, st, hwalk, _⟩ :=
        walkOK l (Scanner.new p m) ⟨0, hist ++ [Event.decision p 0 false]⟩ hw
      refine ⟨_, walkEvents l 0, node, hwalk, ?_, ?_, walkEvents_children l 0, ?_⟩
      · intro ev hev
        obtain ⟨q, rfl⟩ := walkEvents_zero l ev hev
        rfl
      · exact acquires_of_decisions _ (walkEvents_zero l)
      · rw [hrun]
        simp [scanEvents]
    · rw [if_neg hc]
      obtain ⟨kids, st, hwalk, _⟩ :=
        walkOK l (Scanner.new p m)
          ⟨c - 1, hist ++ [Event.decision p c true, Event.acquire p c (c - 1)]⟩
          (by simp only; omega)
      refine ⟨_, walkEvents l (c - 1), node, hwalk, ?_, walkEvents_children l (c - 1), ?_⟩
      · intro ev hev
        exact (walkEvents_bounds l (c - 1) ev hev).1
      · rw [hrun]
        simp [scanEvents, hc]
  · obtain ⟨h1, _, h3⟩ := scanEvents_bounds l p c ev hev
    exact ⟨h3, h1⟩

/-- C10: in a scan started with budget `B`, `scan()` on the root returns and
the dispatch decisions, in scan order, are those of the root at depth 0 and of
the directories below it at their depth `d`, each reading `B - d` (0 when
`d ≥ B`) and going to a worker exactly when `d < B`; the nodes that decrement
the counter are those with `d < B`; at every access the number of slots held,
`B` minus the counter, is at most `min B (depth of the tree + 1)`; and with
budget 0 the scan returns with no decrement at all and the counter at 0 at
every access. -/
theorem C10_depth_budget (l : Listing) (p : String) (m : Bool) (B : Nat) (hB : B < sizeMod) :
    (∃ S w, scan l (Scanner.new p m) ⟨B, []⟩ = some (S, w) ∧
      decisions w.history =
        (((p, 0) :: dirDepths l 1).map (fun x => (x.1, B - x.2, decide (x.2 < B)))) ∧
      acquires w.history =
        (((p, 0) :: dirDepths l 1).filter (fun x => decide (x.2 < B))).map (fun x => x.1) ∧
      (∀ ev ∈ w.history, ev.counter ≤ B ∧ B - ev.counter ≤ min B (height l + 1))) ∧
    (∃ S w, scan l (Scanner.new p m) ⟨0, []⟩ = some (S, w) ∧
      w.numThreadsAvailable = 0 ∧ acquires w.history = [] ∧
      ∀ ev ∈ w.history, ev.counter = 0) := by
  constructor
  · obtain ⟨node, hrun, _⟩ := scan_fresh l p m ⟨B, []⟩ hB
    refine ⟨node, _, hrun, ?_, ?_, ?_⟩
    · have hd := decisions_walk B l 1
      simp only [List.nil_append, scanEvents_inner, decisions, decisions_append, hd,
        List.map_cons]
      by_cases hc : B = 0
      · subst hc; simp [decisions]
      · have : 0 < B := by omega
        simp [hc, this, decisions]
    · have ha := acquires_walk B l 1
      simp only [List.nil_append, scanEvents_inner, List.filter_cons]
      by_cases hc : B = 0
      · subst hc
        simp only [ne_eq, not_true_eq_false, decide_False, if_true, List.nil_append,
          List.append_nil, Nat.lt_irrefl, Bool.false_eq_true, if_false]
        rw [← ha]
        rfl
      · have : 0 < B := by omega
        simp only [hc, if_false, this, decide_True, if_true, List.map_cons, ← ha]
        simp [acquires, List.filterMap_append]
    · intro ev hev
      simp only [List.nil_append] at hev
      obtain ⟨h1, h2, _⟩ := scanEvents_bounds l p B ev hev
      refine ⟨h1, ?_⟩
      simp only [Nat.le_min]
      omega
  · obtain ⟨node, hrun, _⟩ := scan_fresh l p m ⟨0, []⟩ (by simp [sizeMod])
    refine ⟨node, _, hrun, rfl, ?_, ?_⟩
    · simp only [List.nil_append, scanEvents, if_true]
      refine acquires_of_decisions _ (fun ev hev => ?_)
      rcases List.mem_cons.mp hev with rfl | h
      · exact ⟨p, rfl⟩
      · exact walkEvents_zero l ev h
    · intro ev hev
      simp only [List.nil_append] at hev
      exact Nat.le_zero.mp (scanEvents_bounds l p 0 ev hev).1

/-! ## Claim on the report -/

theorem lines_fst (v : List StatsElt) :
    ((v.enumFrom 1).map (fun x => (x.1, x.2.1, x.2.2))).map (fun x => x.1) =
      List.range' 1 v.length := by
  rw [List.map_map, ← List.enumFrom_map_fst 1 v]
  rfl

theorem lines_snd (v : List StatsElt) :
    ((v.enumFrom 1).map (fun x => (x.1, x.2.1, x.2.2))).map (fun x => (x.2.1, x.2.2)) = v := by
  rw [List.map_map]
  conv_rhs => rw [← List.enumFrom_map_snd 1 v]
  rfl

theorem insertByCount_perm (a : StatsElt) (v : List StatsElt) :
    (insertByCount a v).Perm (a :: v) := by
  induction v with
  | nil => rfl
  | cons b rest ih =>
    simp only [insertByCount]
    split
    · exact (List.Perm.cons b ih).trans (List.Perm.swap a b rest)
    · rfl

theorem insertByCount_sorted (a : StatsElt) (v : List StatsElt)
    (h : v.Pairwise (fun x y => comp y x = false)) :
    (insertByCount a v).Pairwise (fun x y => comp y x = false) := by
  induction v with
  | nil => simp [insertByCount]
  | cons b rest ih =>
    obtain ⟨hb, hrest⟩ := List.pairwise_cons.mp h
    simp only [insertByCount]
    split
    · rename_i hba
      refine List.pairwise_cons.mpr ⟨?_, ih hrest⟩
      intro y hy
      rcases List.mem_cons.mp ((insertByCount_perm a rest).mem_iff.mp hy) with rfl | hy
      · simp only [comp, decide_eq_true_eq, decide_eq_false_iff_not] at hba ⊢
        omega
      · exact hb y hy
    · rename_i hba
      refine List.pairwise_cons.mpr ⟨?_, h⟩
      intro y hy
      rcases List.mem_cons.mp hy with rfl | hy
      · simpa using hba
      · have := hb y hy
        simp only [comp, decide_eq_true_eq, decide_eq_false_iff_not, Bool.not_eq_true] at hba this ⊢
        omega

/-- Insertion sort meets the contract of `std::sort`. -/
theorem sortByCount_stdSort : StdSort sortByCount := by
  intro v
  induction v with
  | nil => exact ⟨List.Perm.refl _, List.Pairwise.nil⟩
  | cons a rest ih =>
    refine ⟨?_, ?_⟩
    · exact (insertByCount_perm a _).trans (List.Perm.cons a ih.1)
    · exact insertByCount_sorted a _ ih.2

/-- C8: with any sort that meets the contract of `std::sort`, for a map with
`n` distinct labels `dumpResults()` prints `min 10 n` in the heading and
`min 10 n` lines, ranked 1, 2, ... in order; every line is an entry of the
map, no label comes twice, the counts do not increase down the lines, and an
entry left out has a count no greater than that of any line printed, the last
one included; an empty root directory gives no line; and the map `scan()`
leaves in the root of any tree has distinct labels. -/
theorem C8_report_top_ten (sort : List StatsElt → List StatsElt) (hsort : StdSort sort)
    (s : Scanner) (w : World) (hwf : (joinThreads s w).1._stats.WF) (p : String) (m : Bool)
    (l : Listing) (B : Nat) (hB : B < sizeMod) :
    (dumpResults sort s w).1.top = min 10 (joinThreads s w).1._stats.length ∧
    (dumpResults sort s w).1.lines.length = min 10 (joinThreads s w).1._stats.length ∧
    ((joinThreads s w).1._stats.map Prod.fst).dedup.length =
      (joinThreads s w).1._stats.length ∧
    (dumpResults sort s w).1.lines.map (fun x => x.1) =
      List.range' 1 (min 10 (joinThreads s w).1._stats.length) ∧
    (∀ x ∈ (dumpResults sort s w).1.lines, (x.2.1, x.2.2) ∈ (joinThreads s w).1._stats) ∧
    ((dumpResults sort s w).1.lines.map (fun x => x.2.1)).Nodup ∧
    ((dumpResults sort s w).1.lines.map (fun x => x.2.2)).Pairwise (fun a b => a ≥ b) ∧
    (∀ e ∈ (joinThreads s w).1._stats,
      e ∉ (dumpResults sort s w).1.lines.map (fun x => (x.2.1, x.2.2)) →
      ∀ x ∈ (dumpResults sort s w).1.lines, e.2 ≤ x.2.2) ∧
    (∃ S w1, scan .done (Scanner.new p m) ⟨0, []⟩ = some (S, w1) ∧
      (dumpResults sort S w1).1 = { top := 0, lines := [] }) ∧
    ∃ S w1, scan l (Scanner.new p m) ⟨B, []⟩ = some (S, w1) ∧
      (joinThreads S w1).1._stats.WF := by
  generalize hst : (joinThreads s w).1._stats = stats at hwf ⊢
  have hmap : ∀ v : Stats, v.map (fun pr => (pr.1, pr.2)) = v := fun v => by simp
  obtain ⟨hperm, hsorted⟩ := hsort stats
  have hlen : (sort stats).length = stats.length := hperm.length_eq
  have hlines : (dumpResults sort s w).1.lines =
      (((sort stats).take 10).enumFrom 1).map (fun x => (x.1, x.2.1, x.2.2)) := by
    simp only [dumpResults, hst, hmap]
  have hsnd : (dumpResults sort s w).1.lines.map (fun x => (x.2.1, x.2.2)) =
      (sort stats).take 10 := by rw [hlines, lines_snd]
  have hmem : ∀ x ∈ (dumpResults sort s w).1.lines, (x.2.1, x.2.2) ∈ (sort stats).take 10 := by
    intro x hx
    rw [← hsnd]
    exact List.mem_map_of_mem (fun x => (x.2.1, x.2.2)) hx
  have hsub : ((sort stats).take 10).Sublist (sort stats) := List.take_sublist _ _
  refine ⟨?_, ?_, ?_, ?_, ?_, ?_, ?_, ?_, ?_, ?_⟩
  · simp only [dumpResults, hst, hmap, hlen]
  · rw [hlines]
    simp [hlen]
  · rw [List.Nodup.dedup hwf, List.length_map]
  · rw [hlines, lines_fst]
    simp [hlen]
  · intro x hx
    exact hperm.mem_iff.mp (hsub.subset (hmem x hx))
  · have h1 : (dumpResults sort s w).1.lines.map (fun x => x.2.1) =
        ((sort stats).take 10).map Prod.fst := by
      rw [← hsnd, List.map_map]; rfl
    rw [h1]
    exact ((hperm.map Prod.fst).nodup_iff.mpr hwf).sublist (hsub.map Prod.fst)
  · have h1 : (dumpResults sort s w).1.lines.map (fun x => x.2.2) =
        ((sort stats).take 10).map Prod.snd := by
      rw [← hsnd, List.map_map]; rfl
    rw [h1, List.pairwise_map]
    refine (hsorted.sublist hsub).imp ?_
    intro a b hab
    simp only [comp, decide_eq_false_iff_not] at hab
    omega
  · intro e he hne x hx
    rw [hsnd] at hne
    have hx2 := hmem x hx
    have he2 : e ∈ (sort stats).drop 10 := by
      have : e ∈ (sort stats).take 10 ++ (sort stats).drop 10 := by
        rw [List.take_append_drop]; exact hperm.mem_iff.mpr he
      rcases List.mem_append.mp this with h | h
      · exact absurd h hne
      · exact h
    have hp : ((sort stats).take 10 ++ (sort stats).drop 10).Pairwise
        (fun x y => comp y x = false) := by
      rw [List.take_append_drop]; exact hsorted
    have := (List.pairwise_append.mp hp).2.2 _ hx2 _ he2
    simp only [comp, decide_eq_false_iff_not] at this
    omega
  · have hnil : sort [] = [] := List.Perm.eq_nil (hsort []).1
    refine ⟨Scanner.mk [] [] p false false 0, ⟨0, [Event.decision p 0 false]⟩, rfl, ?_⟩
    simp [dumpResults, joinThreads, joinScanners, Scanner._stats, hnil]
  · obtain ⟨node, hrun, hset, _, hnode, _⟩ := scan_fresh l p m ⟨B, []⟩ hB
    refine ⟨node, _, hrun, ?_⟩
    rw [joinThreads_of_settled node _ hset]
    exact hnode

/-! ## Claim on main -/

/-- The model of `atoi` returns an `int`. -/
theorem atoi_is_int (str : String) : -(2 ^ 31 : Int) ≤ atoi str ∧ atoi str < 2 ^ 31 := by
  have h1 := Int.emod_nonneg (strtol str + 2 ^ 31) (by norm_num : (2 ^ 32 : Int) ≠ 0)
  have h2 := Int.emod_lt_of_pos (strtol str + 2 ^ 31) (by norm_num : (0 : Int) < 2 ^ 32)
  unfold atoi toInt32
  constructor <;> omega

/-- The worker count that some values of `-n` give. -/
theorem atoi_values :
    atoi "8" = 8 ∧ atoi "  +12x" = 12 ∧ atoi "abc" = 0 ∧ atoi "" = 0 ∧
    toSizeT (atoi "-1") = 2 ^ 64 - 1 ∧
    atoi "2147483647" = 2147483647 ∧
    toSizeT (atoi "2147483648") = 2 ^ 64 - 2 ^ 31 ∧
    atoi "4294967296" = 0 ∧
    atoi "99999999999999999999" = -1 := by
  refine ⟨by decide, by decide, by decide, by decide, by decide, by decide, by decide,
    by decide, by decide⟩

/-- C1 on scenario D with budget 1. -/
theorem C1_root_totals_witness :
    (1 : Nat) < sizeMod ∧
    ∃ S w, scan scenarioD (Scanner.new "." true) ⟨1, []⟩ = some (S, w) ∧
      (∀ k, (dumpResults sortByCount S w).2.1._stats.get k =
        (((true, scenarioD) :: descendants scenarioD).map
          (fun d => directCount d.1 d.2 k)).sum) ∧
      (∀ (d : Bool × Listing) (q : String) (v : World), v.numThreadsAvailable < sizeMod →
        ∃ s v1, scanImpl d.2 (Scanner.new q d.1) v = some (s, v1) ∧
          ∀ k, s._stats.get k = directCount d.1 d.2 k) ∧
      (∀ B2, B2 < sizeMod →
        ∃ S2 w2, scan scenarioD (Scanner.new "." true) ⟨B2, []⟩ = some (S2, w2) ∧
          ∀ k, (dumpResults sortByCount S2 w2).2.1._stats.get k =
            (dumpResults sortByCount S w).2.1._stats.get k) :=
  ⟨by decide, C1_root_totals scenarioD "." true 1 (by decide) sortByCount⟩

/-- C2 on scenario D with budget 2. -/
theorem C2_budget_conserved_witness :
    (2 : Nat) < sizeMod ∧
    ∃ S w, scan scenarioD (Scanner.new "." true) ⟨2, []⟩ = some (S, w) ∧
      w.numThreadsAvailable = 2 ∧
      matched [] w.history = true ∧
      (acquires w.history).Perm (releases w.history) ∧
      S._thread = false ∧
      (dumpResults sortByCount S w).2.2 = w :=
  ⟨by decide, C2_budget_conserved scenarioD "." true 2 (by decide) sortByCount⟩

/-- C4 on scenario B. -/
theorem C4_walk_classifies_witness :
    ((0 : Nat) < sizeMod ∧ scenarioB.throws = false ∧
      ∀ e ∈ scenarioB.entries,
        e.is_symlink ≠ none ∧ e.is_directory ≠ none ∧ e.is_regular_file ≠ none) ∧
    ((∃ s w1, scanImpl scenarioB (Scanner.new "." true) ⟨0, []⟩ = some (s, w1) ∧
      (∀ k, s._stats.get k =
        (if k = "__symlink__" then scenarioB.entries.countP Entry.isSymlink else 0) +
        (if k = "__other__" then scenarioB.entries.countP Entry.isOther else 0) +
        scenarioB.entries.countP
          (fun e => e.isRegular && decide (magicKey true e.magic_file = k))) ∧
      s._scanners.map Scanner._path =
        (scenarioB.entries.filter Entry.isDirectory).map Entry.path ∧
      s._numScanned = scenarioB.entries.length) ∧
    (∀ e ∈ scenarioB.entries,
      e.isSymlink.toNat + e.isDirectory.toNat + e.isRegular.toNat + e.isOther.toNat = 1) ∧
    (∀ e ∈ scenarioB.entries, e.is_symlink = some true → e.isDirectory = false) ∧
    (scanImpl scenarioB (Scanner.new "." true) ⟨0, []⟩).map
        (fun r => (r.1._stats, r.1._scanners.length)) =
      some ([("text", 2), ("image", 1), ("__symlink__", 1)], 0)) :=
  ⟨⟨by decide, by decide, by decide⟩,
    C4_walk_classifies scenarioB "." true ⟨0, []⟩ (by decide) (by decide) (by decide)⟩

/-- C5 on an entry whose type test throws and on scenario C. -/
theorem C5_walk_errors_counted_witness :
    ((1 : Nat) < sizeMod ∧ (vanished "gone").testThrows ∧
      OneUnreadable scenarioC0 scenarioC1) ∧
    (scanImpl (.entry (vanished "gone") .done scenarioB) (Scanner.new "." true) ⟨1, []⟩ =
      scanImpl scenarioB ((Scanner.new "." true).incNumScanned.bump "__error__") ⟨1, []⟩ ∧
    (∀ k, ((Scanner.new "." true).incNumScanned.bump "__error__")._stats.get k =
      (Scanner.new "." true)._stats.get k + (if k = "__error__" then 1 else 0)) ∧
    scanImpl .error (Scanner.new "." true) ⟨1, []⟩ =
      some ((Scanner.new "." true).bump "__error__", ⟨1, []⟩) ∧
    (∀ l : Listing, ∃ s1 w1, scanImpl l (Scanner.new "." true) ⟨1, []⟩ = some (s1, w1) ∧
      s1._numScanned = (Scanner.new "." true)._numScanned + l.entries.length) ∧
    ∃ S0 w0 S1 w1,
      scan scenarioC0 (Scanner.new "." true) ⟨1, []⟩ = some (S0, w0) ∧
      scan scenarioC1 (Scanner.new "." true) ⟨1, []⟩ = some (S1, w1) ∧
      (∀ k, (dumpResults sortByCount S1 w1).2.1._stats.get k =
        (dumpResults sortByCount S0 w0).2.1._stats.get k +
          (if k = "__error__" then 1 else 0)) ∧
      1 ≤ (dumpResults sortByCount S1 w1).2.1._stats.get "__error__") :=
  ⟨⟨by decide, Or.inl rfl, OneUnreadable.later _ _ _ _ (OneUnreadable.here _ _ rfl)⟩,
    C5_walk_errors_counted (vanished "gone") .done scenarioB (Scanner.new "." true) ⟨1, []⟩
      (by decide) (Or.inl rfl) scenarioC0 scenarioC1
      (OneUnreadable.later _ _ _ _ (OneUnreadable.here _ _ rfl)) "." true 1 (by decide)
      sortByCount⟩

/-- C7 on scenario D entered with the counter at 2. -/
theorem C7_dispatch_tryAcquire_witness :
    (2 : Nat) < sizeMod ∧
    ((if (2 : Nat) = 0 then
      ∃ s1 evs S,
        scanImpl scenarioD (Scanner.new "." true) ⟨0, [] ++ [Event.decision "." 0 false]⟩ =
          some (s1, ⟨0, [] ++ [Event.decision "." 0 false] ++ evs⟩) ∧
        (∀ ev ∈ evs, ev.counter = 0) ∧ acquires evs = [] ∧
        evs = (dirEntries scenarioD).flatMap
          (fun d => scanEvents d.1.path (walkEvents d.2) 0) ∧
        scan scenarioD (Scanner.new "." true) ⟨2, []⟩ =
          some (S, ⟨0, [] ++ [Event.decision "." 0 false] ++ evs⟩)
    else
      ∃ s1 evs S,
        scanImpl scenarioD (Scanner.new "." true)
            ⟨2 - 1, [] ++ [Event.decision "." 2 true, Event.acquire "." 2 (2 - 1)]⟩ =
          some (s1, ⟨2 - 1,
            [] ++ [Event.decision "." 2 true, Event.acquire "." 2 (2 - 1)] ++ evs⟩) ∧
        (∀ ev ∈ evs, ev.counter ≤ 2 - 1) ∧
        evs = (dirEntries scenarioD).flatMap
          (fun d => scanEvents d.1.path (walkEvents d.2) (2 - 1)) ∧
        scan scenarioD (Scanner.new "." true) ⟨2, []⟩ =
          some (S, ⟨2,
            [] ++ [Event.decision "." 2 true, Event.acquire "." 2 (2 - 1)] ++ evs ++
              [Event.release "." (2 - 1) 2]⟩)) ∧
    ∃ S evs, scan scenarioD (Scanner.new "." true) ⟨2, []⟩ = some (S, ⟨2, [] ++ evs⟩) ∧
      ∀ ev ∈ evs, ev.exact = true ∧ ev.counter ≤ 2) :=
  ⟨by decide, C7_dispatch_tryAcquire scenarioD "." true ⟨2, []⟩ (by decide)⟩

/-- C8 with insertion sort on a map of twelve labels: the ten lines printed. -/
theorem C8_report_top_ten_witness :
    (StdSort sortByCount ∧ (joinThreads twelveRoot ⟨0, []⟩).1._stats.WF ∧
      (3 : Nat) < sizeMod) ∧
    (dumpResults sortByCount twelveRoot ⟨0, []⟩).1 =
      { top := 10,
        lines := [(1, "ELF", 12), (2, "data", 9), (3, "Zip", 8), (4, "text", 7),
          (5, "gzip", 6), (6, "__symlink__", 5), (7, "JSON", 4), (8, "XML", 4),
          (9, "image", 3), (10, "PDF", 2)] } ∧
    ((dumpResults sortByCount twelveRoot ⟨0, []⟩).1.top =
      min 10 (joinThreads twelveRoot ⟨0, []⟩).1._stats.length ∧
    (dumpResults sortByCount twelveRoot ⟨0, []⟩).1.lines.length =
      min 10 (joinThreads twelveRoot ⟨0, []⟩).1._stats.length ∧
    ((joinThreads twelveRoot ⟨0, []⟩).1._stats.map Prod.fst).dedup.length =
      (joinThreads twelveRoot ⟨0, []⟩).1._stats.length ∧
    (dumpResults sortByCount twelveRoot ⟨0, []⟩).1.lines.map (fun x => x.1) =
      List.range' 1 (min 10 (joinThreads twelveRoot ⟨0, []⟩).1._stats.length) ∧
    (∀ x ∈ (dumpResults sortByCount twelveRoot ⟨0, []⟩).1.lines,
      (x.2.1, x.2.2) ∈ (joinThreads twelveRoot ⟨0, []⟩).1._stats) ∧
    ((dumpResults sortByCount twelveRoot ⟨0, []⟩).1.lines.map (fun x => x.2.1)).Nodup ∧
    ((dumpResults sortByCount twelveRoot ⟨0, []⟩).1.lines.map (fun x => x.2.2)).Pairwise
      (fun a b => a ≥ b) ∧
    (∀ e ∈ (joinThreads twelveRoot ⟨0, []⟩).1._stats,
      e ∉ (dumpResults sortByCount twelveRoot ⟨0, []⟩).1.lines.map (fun x => (x.2.1, x.2.2)) →
      ∀ x ∈ (dumpResults sortByCount twelveRoot ⟨0, []⟩).1.lines, e.2 ≤ x.2.2) ∧
    (∃ S w1, scan .done (Scanner.new "." true) ⟨0, []⟩ = some (S, w1) ∧
      (dumpResults sortByCount S w1).1 = { top := 0, lines := [] }) ∧
    ∃ S w1, scan scenarioD (Scanner.new "." true) ⟨3, []⟩ = some (S, w1) ∧
      (joinThreads S w1).1._stats.WF) :=
  ⟨⟨sortByCount_stdSort, by decide, by decide⟩, by decide,
    C8_report_top_ten sortByCount sortByCount_stdSort twelveRoot ⟨0, []⟩ (by decide) "." true
      scenarioD 3 (by decide)⟩

/-- C10 on scenario D with budget 2. -/
theorem C10_depth_budget_witness :
    (2 : Nat) < sizeMod ∧
    ((∃ S w, scan scenarioD (Scanner.new "." true) ⟨2, []⟩ = some (S, w) ∧
      decisions w.history =
        ((("." , 0) :: dirDepths scenarioD 1).map
          (fun x => (x.1, 2 - x.2, decide (x.2 < 2)))) ∧
      acquires w.history =
        ((("." , 0) :: dirDepths scenarioD 1).filter (fun x => decide (x.2 < 2))).map
          (fun x => x.1) ∧
      (∀ ev ∈ w.history, ev.counter ≤ 2 ∧ 2 - ev.counter ≤ min 2 (height scenarioD + 1))) ∧
    (∃ S w, scan scenarioD (Scanner.new "." true) ⟨0, []⟩ = some (S, w) ∧
      w.numThreadsAvailable = 0 ∧ acquires w.history = [] ∧
      ∀ ev ∈ w.history, ev.counter = 0)) :=
  ⟨by decide, C10_depth_budget scenarioD "." true 2 (by decide)⟩

end MagicScan
